import Mathlib

/-
Verification of the fireplan compiler (YAML security-rules DSL to JSON).
The definitions below are a shallow embedding of the JavaScript source
(src/index.js, current class-based revision): the expression transformer
built on an estraverse-style enter/leave traversal, the function table with
its quiescence loop, the rule-tree transformer, and the encryption
extractor.  JavaScript objects are modelled as insertion-ordered
association lists, exceptions as an Except monad, and the two unbounded
recursions of the source (the estraverse replacement descent and the
while-changed loop) as fuel-indexed functions where running out of fuel is
a distinguished error.
-/

namespace Fireplan

/-- Single-quote character, used when serializing string literals. -/
def sq : Char := Char.ofNat 39

/-- Double-quote character. -/
def dq : Char := Char.ofNat 34

/-- Backslash character. -/
def bslash : Char := Char.ofNat 92

/-- JavaScript literal values occurring in the esprima AST subset. -/
inductive LitVal where
  | str (s : String)
  | num (n : Int)
  | bool (b : Bool)
  | jsnull
deriving DecidableEq, Repr

/--
The esprima AST subset handled by the compiler, decorated with the
transient snapshot flag.  The source stores the flag as the mutable
property output = snapshot on Identifier and CallExpression nodes; member
nodes never receive it, so only these two constructors carry a Bool.
-/
inductive Ast where
  | program (body : List Ast)
  | exprStmt (e : Ast)
  | lit (v : LitVal)
  | ident (name : String) (snap : Bool)
  | member (obj : Ast) (computed : Bool) (prop : Ast) (snap2 : Bool)
  | call (callee : Ast) (args : List Ast) (snap : Bool)
  | unary (op : String) (arg : Ast)
  | binary (op : String) (l : Ast) (r : Ast)
  | logical (op : String) (l : Ast) (r : Ast)
  | cond (c : Ast) (t : Ast) (e : Ast)
deriving Repr

/-- Reads the output = snapshot decoration; undefined (false) elsewhere. -/
def Ast.getSnap : Ast → Bool
  | .ident _ s => s
  | .call _ _ s => s
  | _ => false

/-- True when the node is a MemberExpression. -/
def Ast.isMember : Ast → Bool
  | .member _ _ _ _ => true
  | _ => false

/-- Errors thrown by the compiler, by construction site. -/
inductive Err where
  | invalidSignature (sig : String)
  | shadowsBuiltin (arg : String)
  | duplicateFunction (name : String)
  | parseFailure (src : String)
  | jsTypeError (what : String)
  | unknownReference (name : String)
  | undefinedFunction (text : String)
  | argumentCount (text : String)
  | envComputedName
  | emptyOneOf
  | refShadowsBuiltin (v : String)
  | refAlreadySet (v : String)
  | refInScope (v : String)
  | refWildcard (v : String)
  | readWriteConflict (path : String)
  | unknownControlKey (k : String)
  | onlyOneWildcard (k : String)
  | fewOnNonWildcard (k : String)
  | duplicatedKeywords (k : String) (pfx : String)
  | requiredWildcard
  | expressionExpected
  | danglingIndex
  | outOfFuel
  | inExpr (e : Err) (src : String)
  | atPath (e : Err) (path : String)
deriving DecidableEq, Repr

/--
Mirrors the error handler in transformBranch: append the path context only
when no nested call has done so already (the located flag of the source).
-/
def Err.locate (e : Err) (path : String) : Err :=
  match e with
  | .atPath e0 p0 => .atPath e0 p0
  | e => .atPath e path

/-- Is the outcome the duplicate-function-definition error (any name)? -/
def isDuplicateFunctionError {α : Type} : Except Err α → Bool
  | .error (.duplicateFunction _) => true
  | _ => false

/-- YAML values as decoded for the compiler input (rule-tree side). -/
inductive Yaml where
  | str (s : String)
  | bool (b : Bool)
  | num (n : Int)
  | null
  | map (entries : List (String × Yaml))
deriving Repr

/-- JSON output values produced by the compiler. -/
inductive JVal where
  | str (s : String)
  | bool (b : Bool)
  | num (n : Int)
  | jnull
  | arr (xs : List String)
  | obj (entries : List (String × JVal))
deriving Repr

/-- First-match lookup in an association list (JS property read). -/
def alookup {β : Type} : List (String × β) → String → Option β
  | [], _ => none
  | (k, v) :: rest, key => if k = key then some v else alookup rest key

/-- JS property write: replace in place when present, else append. -/
def aset {β : Type} : List (String × β) → String → β → List (String × β)
  | [], key, v => [(key, v)]
  | (k, w) :: rest, key, v =>
      if k = key then (k, v) :: rest else (k, w) :: aset rest key v

/-- JS delete: remove the property (all copies, a JS object has one). -/
def adel {β : Type} : List (String × β) → String → List (String × β)
  | [], _ => []
  | (k, w) :: rest, key => if k = key then adel rest key else (k, w) :: adel rest key

/-- JS truthiness of a YAML value. -/
def Yaml.truthy : Yaml → Bool
  | .str s => s ≠ ""
  | .bool b => b
  | .num n => n ≠ 0
  | .null => false
  | .map _ => true

/-- JS truthiness of a JSON value. -/
def JVal.truthy : JVal → Bool
  | .str s => s ≠ ""
  | .bool b => b
  | .num n => n ≠ 0
  | .jnull => false
  | .arr _ => true
  | .obj _ => true

/-- The reserved builtin identifier set of the source (BUILTINS object). -/
def builtinNames : List String :=
  ["auth", "now", "root", "next", "newData", "prev", "data", "env", "query"]

/-- JS \s for the ASCII subset relevant here. -/
def isWs (c : Char) : Bool :=
  c = ' ' ∨ c = '\t' ∨ c = '\n' ∨ c = '\r'

/-- JS String.prototype.trim on the ASCII whitespace subset. -/
def jsTrim (s : String) : String :=
  String.mk ((s.toList.dropWhile isWs).reverse.dropWhile isWs |>.reverse)

/-- Is the character a JS word character (regex w class)? -/
def isWordChar (c : Char) : Bool :=
  c.isAlpha ∨ c.isDigit ∨ c = '_'

/-- Characters that may start an identifier in the expression language. -/
def isIdentStart (c : Char) : Bool :=
  c.isAlpha ∨ c = '_' ∨ c = '$'

/-- Characters that may continue an identifier. -/
def isIdentChar (c : Char) : Bool :=
  c.isAlpha ∨ c.isDigit ∨ c = '_' ∨ c = '$'

/-- JS split on runs of whitespace (the split regex of the keyword check):
leading and trailing separator runs contribute empty fields, and the empty
string yields one empty field, as in JavaScript. -/
def splitWsGo : List Char → Bool → List Char → List String
  | [], true, _ => [""]
  | [], false, acc => [String.mk acc.reverse]
  | c :: rest, true, acc =>
      if isWs c then splitWsGo rest true acc
      else splitWsGo rest false [c]
  | c :: rest, false, acc =>
      if isWs c then String.mk acc.reverse :: splitWsGo rest true []
      else splitWsGo rest false (c :: acc)

/-- JS String.prototype.split with a whitespace-run pattern. -/
def splitWs (s : String) : List String :=
  splitWsGo s.toList false []

/-!
Expression parsing.  The source calls esprima.parse; we embed the
JavaScript-expression subset the DSL accepts (literals, identifiers,
member access, calls, unary, binary, logical and conditional operators).
Statements, assignments and constructs outside this subset are rejected,
which the pipeline surfaces the same way as an esprima throw.
-/

/-- Token stream elements. -/
inductive Tok where
  | ident (s : String)
  | num (n : Int)
  | str (s : String)
  | punct (s : String)
deriving Repr, DecidableEq

/-- Take a maximal run of identifier characters. -/
def takeIdent : List Char → (List Char × List Char)
  | [] => ([], [])
  | c :: rest =>
      if isIdentChar c then ((c :: (takeIdent rest).1), (takeIdent rest).2)
      else ([], c :: rest)

/-- Take a maximal run of decimal digits. -/
def takeDigits : List Char → (List Char × List Char)
  | [] => ([], [])
  | c :: rest =>
      if c.isDigit then ((c :: (takeDigits rest).1), (takeDigits rest).2)
      else ([], c :: rest)

/-- Value of a digit run. -/
def digitsVal (cs : List Char) : Int :=
  cs.foldl (fun acc c => acc * 10 + (c.toNat - 48 : Int)) 0

/-- Resolution of a backslash escape inside a string literal. -/
def escChar (c : Char) : Char :=
  if c = 'n' then '\n' else if c = 't' then '\t' else if c = 'r' then '\r' else c

/-- Scan a string literal body up to the closing quote q. -/
def scanStr (q : Char) : List Char → Option (List Char × List Char)
  | [] => none
  | c :: rest =>
      if c = q then some ([], rest)
      else if c = bslash then
        match rest with
        | [] => none
        | e :: rest2 => (scanStr q rest2).map (fun p => (escChar e :: p.1, p.2))
      else (scanStr q rest).map (fun p => (c :: p.1, p.2))

/-- Fueled tokenizer; each step consumes at least one character. -/
def tokenizeF : Nat → List Char → Option (List Tok)
  | 0, _ => none
  | _ + 1, [] => some []
  | fuel + 1, c :: rest =>
      if isWs c then tokenizeF fuel rest
      else if isIdentStart c then
        let p := takeIdent rest
        (tokenizeF fuel p.2).map (Tok.ident (String.mk (c :: p.1)) :: ·)
      else if c.isDigit then
        let p := takeDigits rest
        (tokenizeF fuel p.2).map (Tok.num (digitsVal (c :: p.1)) :: ·)
      else if c = sq ∨ c = dq then
        match scanStr c rest with
        | none => none
        | some p => (tokenizeF fuel p.2).map (Tok.str (String.mk p.1) :: ·)
      else
        match c, rest with
        | '=', '=' :: '=' :: r => (tokenizeF fuel r).map (Tok.punct "===" :: ·)
        | '=', '=' :: r => (tokenizeF fuel r).map (Tok.punct "==" :: ·)
        | '!', '=' :: '=' :: r => (tokenizeF fuel r).map (Tok.punct "!==" :: ·)
        | '!', '=' :: r => (tokenizeF fuel r).map (Tok.punct "!=" :: ·)
        | '!', r => (tokenizeF fuel r).map (Tok.punct "!" :: ·)
        | '<', '=' :: r => (tokenizeF fuel r).map (Tok.punct "<=" :: ·)
        | '<', r => (tokenizeF fuel r).map (Tok.punct "<" :: ·)
        | '>', '=' :: r => (tokenizeF fuel r).map (Tok.punct ">=" :: ·)
        | '>', r => (tokenizeF fuel r).map (Tok.punct ">" :: ·)
        | '&', '&' :: r => (tokenizeF fuel r).map (Tok.punct "&&" :: ·)
        | '|', '|' :: r => (tokenizeF fuel r).map (Tok.punct "||" :: ·)
        | '(', r => (tokenizeF fuel r).map (Tok.punct "(" :: ·)
        | ')', r => (tokenizeF fuel r).map (Tok.punct ")" :: ·)
        | '[', r => (tokenizeF fuel r).map (Tok.punct "[" :: ·)
        | ']', r => (tokenizeF fuel r).map (Tok.punct "]" :: ·)
        | '.', r => (tokenizeF fuel r).map (Tok.punct "." :: ·)
        | ',', r => (tokenizeF fuel r).map (Tok.punct "," :: ·)
        | '+', r => (tokenizeF fuel r).map (Tok.punct "+" :: ·)
        | '-', r => (tokenizeF fuel r).map (Tok.punct "-" :: ·)
        | '*', r => (tokenizeF fuel r).map (Tok.punct "*" :: ·)
        | '/', r => (tokenizeF fuel r).map (Tok.punct "/" :: ·)
        | '%', r => (tokenizeF fuel r).map (Tok.punct "%" :: ·)
        | '?', r => (tokenizeF fuel r).map (Tok.punct "?" :: ·)
        | ':', r => (tokenizeF fuel r).map (Tok.punct ":" :: ·)
        | _, _ => none

/-- Tokenize a whole string. -/
def tokenize (s : String) : Option (List Tok) :=
  tokenizeF (s.toList.length + 1) s.toList

/-- Precedence of a binary or logical operator (escodegen scale). -/
def binPrec : String → Nat
  | "||" => 3
  | "&&" => 4
  | "==" => 8 | "!=" => 8 | "===" => 8 | "!==" => 8
  | "<" => 9 | ">" => 9 | "<=" => 9 | ">=" => 9
  | "+" => 11 | "-" => 11
  | "*" => 12 | "/" => 12 | "%" => 12
  | _ => 0

/-- Literal conversion for keyword identifiers (esprima makes Literals). -/
def identAsPrimary (s : String) : Ast :=
  if s = "true" then .lit (.bool true)
  else if s = "false" then .lit (.bool false)
  else if s = "null" then .lit .jsnull
  else .ident s false

mutual

/-- Primary expressions: literals, identifiers, parenthesized groups. -/
def parsePrimary : Nat → List Tok → Option (Ast × List Tok)
  | 0, _ => none
  | fuel + 1, toks =>
      match toks with
      | .ident s :: rest => some (identAsPrimary s, rest)
      | .num n :: rest => some (.lit (.num n), rest)
      | .str s :: rest => some (.lit (.str s), rest)
      | .punct "(" :: rest =>
          match parseExprP fuel 0 rest with
          | some (e, .punct ")" :: rest2) => some (e, rest2)
          | _ => none
      | _ => none

/-- Postfix chain: member access and call suffixes. -/
def parsePostfixLoop : Nat → Ast → List Tok → Option (Ast × List Tok)
  | 0, _, _ => none
  | fuel + 1, e, toks =>
      match toks with
      | .punct "." :: .ident p :: rest =>
          parsePostfixLoop fuel (.member e false (.ident p false) false) rest
      | .punct "[" :: rest =>
          match parseExprP fuel 0 rest with
          | some (idx, .punct "]" :: rest2) =>
              parsePostfixLoop fuel (.member e true idx false) rest2
          | _ => none
      | .punct "(" :: .punct ")" :: rest =>
          parsePostfixLoop fuel (.call e [] false) rest
      | .punct "(" :: rest =>
          match parseArgs fuel rest with
          | some (args, rest2) => parsePostfixLoop fuel (.call e args false) rest2
          | none => none
      | _ => some (e, toks)

/-- Comma-separated argument list up to the closing parenthesis. -/
def parseArgs : Nat → List Tok → Option (List Ast × List Tok)
  | 0, _ => none
  | fuel + 1, toks =>
      match parseExprP fuel 0 toks with
      | some (a, .punct "," :: rest) =>
          match parseArgs fuel rest with
          | some (more, rest2) => some (a :: more, rest2)
          | none => none
      | some (a, .punct ")" :: rest) => some ([a], rest)
      | _ => none

/-- Unary prefix operators. -/
def parseUnary : Nat → List Tok → Option (Ast × List Tok)
  | 0, _ => none
  | fuel + 1, toks =>
      match toks with
      | .punct "!" :: rest =>
          (parseUnary fuel rest).map (fun p => (.unary "!" p.1, p.2))
      | .punct "-" :: rest =>
          (parseUnary fuel rest).map (fun p => (.unary "-" p.1, p.2))
      | .punct "+" :: rest =>
          (parseUnary fuel rest).map (fun p => (.unary "+" p.1, p.2))
      | _ =>
          match parsePrimary fuel toks with
          | some (e, rest) => parsePostfixLoop fuel e rest
          | none => none

/-- Precedence-climbing loop for binary and logical operators. -/
def parseBinLoop : Nat → Nat → Ast → List Tok → Option (Ast × List Tok)
  | 0, _, _, _ => none
  | fuel + 1, minPrec, lhs, toks =>
      match toks with
      | .punct op :: rest =>
          let p := binPrec op
          if p = 0 ∨ p < minPrec then some (lhs, toks)
          else
            match parseExprP fuel (p + 1) rest with
            | some (rhs, rest2) =>
                let node : Ast :=
                  if op = "&&" ∨ op = "||" then .logical op lhs rhs
                  else .binary op lhs rhs
                parseBinLoop fuel minPrec node rest2
            | none => none
      | _ => some (lhs, toks)

/-- Expressions at a given minimum precedence, plus the conditional. -/
def parseExprP : Nat → Nat → List Tok → Option (Ast × List Tok)
  | 0, _, _ => none
  | fuel + 1, minPrec, toks =>
      match parseUnary fuel toks with
      | some (lhs, rest) =>
          match parseBinLoop fuel minPrec lhs rest with
          | some (e, rest2) =>
              if minPrec = 0 then
                match rest2 with
                | .punct "?" :: rest3 =>
                    match parseExprP fuel 0 rest3 with
                    | some (t, .punct ":" :: rest4) =>
                        match parseExprP fuel 0 rest4 with
                        | some (f, rest5) => some (.cond e t f, rest5)
                        | none => none
                    | _ => none
                | _ => some (e, rest2)
              else some (e, rest2)
          | none => none
      | none => none

end

/-- Parse a complete expression string (the .body[0].expression view). -/
def parseExpression (s : String) : Option Ast :=
  match tokenize s with
  | none => none
  | some toks =>
      match parseExprP (2 * toks.length + 8) 0 toks with
      | some (e, []) => some e
      | _ => none

/-- esprima.parse: a Program wrapping the expression statement. -/
def parseProgram (s : String) : Option Ast :=
  match tokenize s with
  | none => none
  | some [] => some (.program [])
  | some toks =>
      match parseExprP (2 * toks.length + 8) 0 toks with
      | some (e, []) => some (.program [.exprStmt e])
      | _ => none

/-!
Serialization, embedding escodegen.generate with format options
semicolons:false and newline a single space; string literals default to
single quotes with minimal escaping, and parentheses are inserted exactly
when a subexpression's precedence drops below its context's expectation.
-/

/-- escodegen escapeString with the default single-quote style. -/
def escapeJsStr (s : String) : String :=
  String.mk (sq :: (s.toList.flatMap fun c =>
    if c = sq then [bslash, sq]
    else if c = bslash then [bslash, bslash]
    else if c = '\n' then [bslash, 'n']
    else [c]) ++ [sq])

/-- Literal serialization. -/
def genLit : LitVal → String
  | .str s => escapeJsStr s
  | .num n => toString n
  | .bool b => if b then "true" else "false"
  | .jsnull => "null"

mutual

/-- Serialize with a minimum precedence; parenthesize below it. -/
def genExpr : Ast → Nat → String
  | .lit v, _ => genLit v
  | .ident n _, _ => n
  | .member o c p _, prec =>
      let txt :=
        if c then genExpr o 17 ++ "[" ++ genExpr p 2 ++ "]"
        else genExpr o 17 ++ "." ++ genExpr p 0
      if 18 < prec then "(" ++ txt ++ ")" else txt
  | .call f args _, prec =>
      let txt := genExpr f 17 ++ "(" ++ genArgs args ++ ")"
      if 17 < prec then "(" ++ txt ++ ")" else txt
  | .unary op a, prec =>
      let txt := op ++ genExpr a 14
      if 14 < prec then "(" ++ txt ++ ")" else txt
  | .binary op l r, prec =>
      let p := binPrec op
      let txt := genExpr l p ++ " " ++ op ++ " " ++ genExpr r (p + 1)
      if p < prec then "(" ++ txt ++ ")" else txt
  | .logical op l r, prec =>
      let p := binPrec op
      let txt := genExpr l p ++ " " ++ op ++ " " ++ genExpr r (p + 1)
      if p < prec then "(" ++ txt ++ ")" else txt
  | .cond c t e, prec =>
      let txt := genExpr c 4 ++ " ? " ++ genExpr t 2 ++ " : " ++ genExpr e 2
      if 3 < prec then "(" ++ txt ++ ")" else txt
  | .exprStmt e, _ => genExpr e 0
  | .program body, _ => String.intercalate " " (genStmts body)

/-- Serialize a statement list. -/
def genStmts : List Ast → List String
  | [] => []
  | s :: rest => genExpr s 0 :: genStmts rest

/-- Serialize a comma-separated argument list. -/
def genArgs : List Ast → String
  | [] => ""
  | [a] => genExpr a 2
  | a :: rest => genExpr a 2 ++ ", " ++ genArgs rest

end

/-- Compiler.generate: escodegen with no semicolons, space newlines. -/
def generate (ast : Ast) : String :=
  genExpr ast 0

/-!
The AST transformer (Compiler.transformAst).  estraverse.replace performs a
pre-order enter and post-order leave per node.  The source compares object
identities parent.property === node and parent.callee === node; a pure
embedding carries the child position as an explicit parent context.  In
estraverse.replace the root element itself is the top of the leave list, so
at the root the parent seen by the callbacks is the node itself; PCtx.top
captures this (the README example with a member-rooted function body relies
on it).  A node returned by enter is descended into without re-entering it,
and a node returned by leave replaces without further traversal.
-/

/-- Parent context of the node currently visited. -/
inductive PCtx where
  | top
  | memberObj
  | memberPropNC
  | memberPropC
  | callee
  | other
deriving Repr, DecidableEq

/-- A function-table entry: parameter list and (parsed) body. -/
structure FuncDef where
  args : List String
  ast : Ast
deriving Repr

/-- The function table, in insertion order (a JS object keyed by name). -/
abbrev FnTable := List (String × FuncDef)

/-- The process environment snapshot. -/
abbrev EnvMap := List (String × String)

/-- Named refs in scope, mapped to the level they were bound at. -/
abbrev RefMap := List (String × Nat)

/-- Result of the enter callback: node kept (fields possibly mutated) or
replaced by a new subtree that traversal will descend into. -/
inductive EnterRes where
  | kept (node : Ast)
  | replaced (node : Ast)
deriving Repr

/-- The parent-chain expansion of a ref identifier: the base snapshot
wrapped in level minus refLevel parent() calls, all snapshot-typed. -/
def refChain : Nat → Bool → Ast
  | 0, nd => .ident (if nd then "newData" else "data") true
  | k + 1, nd =>
      .call (.member (refChain k nd) false (.ident "parent" false) false) [] true

/-- Does the callee match the child/parent snapshot-call patterns? -/
def calleeIsChildParent : Ast → Bool
  | .ident n _ => n = "child" ∨ n = "parent"
  | .member _ false (.ident p _) _ => p = "child" ∨ p = "parent"
  | _ => false

/-- The enter callback.  Returns the node disposition and whether the
changed flag was raised. -/
def enterNode (fns : FnTable) (locals : List String) (refs : Option RefMap)
    (level : Nat) (newData : Bool) (node : Ast) (ctx : PCtx) :
    Except Err (EnterRes × Bool) :=
  match node with
  | .ident name snap =>
      if ctx = .memberPropNC ∨ ctx = .callee then pure (.kept node, false)
      else if name = "auth" ∨ name = "now" then pure (.kept node, false)
      else if name = "root" then pure (.kept (.ident "root" true), false)
      else if name = "next" ∨ name = "newData" then
        pure (.kept (.ident "newData" true), false)
      else if name = "prev" ∨ name = "data" then
        pure (.kept (.ident "data" true), false)
      else if name = "oneOf" ∨ name = "env" then pure (.kept node, false)
      else if name ∈ locals then pure (.kept node, false)
      else
        match refs.bind (alookup · name) with
        | some k => pure (.replaced (refChain (level - k) newData), true)
        | none =>
            if (alookup fns name).isSome then
              pure (.replaced (.call (.ident name snap) [] false), true)
            else throw (.unknownReference name)
  | .call callee args snap =>
      if calleeIsChildParent callee then pure (.kept (.call callee args true), false)
      else pure (.kept (.call callee args snap), false)
  | n => pure (.kept n, false)

/-- Name of a non-computed member property (an identifier in esprima). -/
def propName : Ast → String
  | .ident n _ => n
  | _ => "undefined"

/-- String coercion of a literal used as a computed env key. -/
def litKeyStr : LitVal → String
  | .str s => s
  | .num n => toString n
  | .bool b => if b then "true" else "false"
  | .jsnull => "null"

/-- The shared newData.val() template of the oneOf expansion. -/
def NEW_DATA_VAL : Ast :=
  .call (.member (.ident "newData" false) false (.ident "val" false) false) [] false

/-- oneOf(a, b, ...) as a left-associated disjunction of equalities. -/
def oneOfExpand (a : Ast) (rest : List Ast) : Ast :=
  rest.foldl (fun c arg => .logical "||" c (.binary "==" NEW_DATA_VAL arg))
    (.binary "==" NEW_DATA_VAL a)

/-- Bindings of parameter names to argument subtrees, later names win. -/
def zipBindings : List String → List Ast → List (String × Ast)
  | [], _ => []
  | _, [] => []
  | p :: ps, a :: as2 => aset (zipBindings ps as2) p a

mutual

/-- The parameter-substitution traversal used when inlining a call: an
enter-only estraverse.replace over the cloned body.  A substituted
argument is not re-entered but its children are traversed, exactly as
estraverse continues into a replacement. -/
def substNode : Nat → List (String × Ast) → Ast → Bool → Except Err Ast
  | 0, _, _, _ => throw .outOfFuel
  | fuel + 1, b, node, isNCProp =>
      match node with
      | .ident n s =>
          if isNCProp then substKids fuel b (.ident n s)
          else
            match alookup b n with
            | some a => substKids fuel b a
            | none => substKids fuel b (.ident n s)
      | n => substKids fuel b n

/-- Child traversal for the substitution visitor. -/
def substKids : Nat → List (String × Ast) → Ast → Except Err Ast
  | 0, _, _ => throw .outOfFuel
  | fuel + 1, b, node =>
      match node with
      | .member o c p s => do
          let o' ← substNode fuel b o false
          let p' ← substNode fuel b p (!c)
          pure (.member o' c p' s)
      | .call f args s => do
          let f' ← substNode fuel b f false
          let args' ← substList fuel b args
          pure (.call f' args' s)
      | .unary op a => do pure (.unary op (← substNode fuel b a false))
      | .binary op l r => do
          pure (.binary op (← substNode fuel b l false) (← substNode fuel b r false))
      | .logical op l r => do
          pure (.logical op (← substNode fuel b l false) (← substNode fuel b r false))
      | .cond c t e => do
          pure (.cond (← substNode fuel b c false) (← substNode fuel b t false)
            (← substNode fuel b e false))
      | .exprStmt e => do pure (.exprStmt (← substNode fuel b e false))
      | .program body => do pure (.program (← substList fuel b body))
      | n => pure n

/-- Substitution over a node list. -/
def substList : Nat → List (String × Ast) → List Ast → Except Err (List Ast)
  | 0, _, _ => throw .outOfFuel
  | _ + 1, _, [] => pure []
  | fuel + 1, b, n :: rest => do
      let n' ← substNode fuel b n false
      let rest' ← substList fuel b rest
      pure (n' :: rest')

end

/-- May the snapshot-to-value coercion fire in this context?  Mirrors
parent.type !== MemberExpression or computed parent.property === node; at
the root the parent object is the node itself. -/
def coercible (ctx : PCtx) (originalNode : Ast) : Bool :=
  match ctx with
  | .top => ¬ originalNode.isMember
  | .memberObj => false
  | .memberPropNC => false
  | .memberPropC => true
  | .callee => true
  | .other => true

/-- The leave callback.  The argument is the post-children node (the
originalNode of the source); rewriting steps reassign it in order: env
expansion, snapshot member lift, snapshot value coercion, then oneOf
expansion or function inlining. -/
def leaveNode (fns : FnTable) (env : EnvMap) (fuel : Nat) (locals : List String)
    (node : Ast) (ctx : PCtx) : Except Err (Ast × Bool) := do
  let n0 := node
  let n1 ←
    match n0 with
    | .member (.ident "env" _) computed prop _ =>
        if computed then
          match prop with
          | .lit v => pure (Ast.lit (.str ((alookup env (litKeyStr v)).getD "")))
          | _ => throw Err.envComputedName
        else
          pure (Ast.lit (.str ((alookup env (propName prop)).getD "")))
    | _ => pure n0
  let (n2, ch2) :=
    match n1 with
    | .member obj computed prop _ =>
        if obj.getSnap ∧ ctx ≠ .callee then
          (Ast.call (.member obj false (.ident "child" false) false)
            [if computed then prop else .lit (.str (propName prop))] true, true)
        else (n1, false)
    | _ => (n1, false)
  let (n3, ch3) :=
    if n2.getSnap ∧ coercible ctx n0 then
      (Ast.call (.member n2 false (.ident "val" false) false) [] false, true)
    else (n2, false)
  match n3 with
  | .call (.ident fname fsnap) args csnap =>
      if fname ∈ locals then pure (n3, ch2 ∨ ch3)
      else if fname = "oneOf" then
        match args with
        | [] => throw Err.emptyOneOf
        | a :: rest => pure (oneOfExpand a rest, true)
      else
        match alookup fns fname with
        | none => throw (Err.undefinedFunction (generate (.call (.ident fname fsnap) args csnap)))
        | some fd =>
            if args.length ≠ fd.args.length then
              throw (Err.argumentCount (generate (.call (.ident fname fsnap) args csnap)))
            else do
              let inlined ← substNode fuel (zipBindings fd.args args) fd.ast false
              pure (inlined, true)
  | _ => pure (n3, ch2 ∨ ch3)

/-- Work items of the traversal: visit a node under a parent context,
descend into the children of a node, or walk a node list. -/
inductive TJob where
  | visit (node : Ast) (ctx : PCtx)
  | kids (node : Ast)
  | vlist (nodes : List Ast)

/-- Traversal results: a rebuilt node or a rebuilt list. -/
inductive TRes where
  | one (node : Ast)
  | many (nodes : List Ast)

/-- Projection of a single-node result (the default is never used: a
visit or kids job always yields a single node). -/
def TRes.getOne : TRes → Ast → Ast
  | .one n, _ => n
  | .many _, d => d

/-- Projection of a list result. -/
def TRes.getMany : TRes → List Ast
  | .many ns => ns
  | .one n => [n]

/-- One estraverse.replace traversal: a visit runs enter, descends into
the (possibly replaced) node's children, then runs leave; children are
visited in source order, each under its parent context. -/
def travGo (fns : FnTable) (env : EnvMap) (locals : List String)
    (refs : Option RefMap) (level : Nat) (newData : Bool) :
    Nat → TJob → Except Err (TRes × Bool)
  | 0, _ => throw .outOfFuel
  | fuel + 1, .visit node ctx => do
      let (er, chE) ← enterNode fns locals refs level newData node ctx
      let n1 := match er with | .kept n => n | .replaced n => n
      let (rc, chC) ← travGo fns env locals refs level newData fuel (.kids n1)
      let n2 := rc.getOne n1
      let (n3, chL) ← leaveNode fns env fuel locals n2 ctx
      pure (.one n3, chE ∨ chC ∨ chL)
  | fuel + 1, .kids node =>
      match node with
      | .member o c p s => do
          let (ro, a) ← travGo fns env locals refs level newData fuel (.visit o .memberObj)
          let (rp, b2) ← travGo fns env locals refs level newData fuel
            (.visit p (if c then .memberPropC else .memberPropNC))
          pure (.one (.member (ro.getOne o) c (rp.getOne p) s), a ∨ b2)
      | .call f args s => do
          let (rf, a) ← travGo fns env locals refs level newData fuel (.visit f .callee)
          let (ra, b2) ← travGo fns env locals refs level newData fuel (.vlist args)
          pure (.one (.call (rf.getOne f) ra.getMany s), a ∨ b2)
      | .unary op a => do
          let (ra, c) ← travGo fns env locals refs level newData fuel (.visit a .other)
          pure (.one (.unary op (ra.getOne a)), c)
      | .binary op l r => do
          let (rl, a) ← travGo fns env locals refs level newData fuel (.visit l .other)
          let (rr, b2) ← travGo fns env locals refs level newData fuel (.visit r .other)
          pure (.one (.binary op (rl.getOne l) (rr.getOne r)), a ∨ b2)
      | .logical op l r => do
          let (rl, a) ← travGo fns env locals refs level newData fuel (.visit l .other)
          let (rr, b2) ← travGo fns env locals refs level newData fuel (.visit r .other)
          pure (.one (.logical op (rl.getOne l) (rr.getOne r)), a ∨ b2)
      | .cond c t e => do
          let (rc, a) ← travGo fns env locals refs level newData fuel (.visit c .other)
          let (rt, b2) ← travGo fns env locals refs level newData fuel (.visit t .other)
          let (re, c2) ← travGo fns env locals refs level newData fuel (.visit e .other)
          pure (.one (.cond (rc.getOne c) (rt.getOne t) (re.getOne e)), a ∨ b2 ∨ c2)
      | .exprStmt e => do
          let (re, c) ← travGo fns env locals refs level newData fuel (.visit e .other)
          pure (.one (.exprStmt (re.getOne e)), c)
      | .program body => do
          let (rb, c) ← travGo fns env locals refs level newData fuel (.vlist body)
          pure (.one (.program rb.getMany), c)
      | .lit v => pure (.one (.lit v), false)
      | .ident n s => pure (.one (.ident n s), false)
  | _ + 1, .vlist [] => pure (.many [], false)
  | fuel + 1, .vlist (n :: rest) => do
      let (rn, a) ← travGo fns env locals refs level newData fuel (.visit n .other)
      let (rr, b2) ← travGo fns env locals refs level newData fuel (.vlist rest)
      pure (.many (rn.getOne n :: rr.getMany), a ∨ b2)

/-- Compiler.transformAst: one full enter/leave pass, resetting and then
reporting the changed flag. -/
def transformAst (fuel : Nat) (fns : FnTable) (env : EnvMap) (locals : List String)
    (refs : Option RefMap) (level : Nat) (newData : Bool) (ast : Ast) :
    Except Err (Ast × Bool) := do
  let (r, ch) ← travGo fns env locals refs level newData fuel (.visit ast .top)
  pure (r.getOne ast, ch)

/-!
Function-table construction (Compiler.defineFunctions): the functions
sequence is extended with the builtin value types, each signature is
matched against the name-and-parameters pattern, duplicate names and
builtin-shadowing parameters are rejected, bodies are parsed, and the
transformer is re-run over every body until a pass reports no change.
-/

/-- Take a maximal run of word characters (the regex w class). -/
def takeWord : List Char → (List Char × List Char)
  | [] => ([], [])
  | c :: rest =>
      if isWordChar c then ((c :: (takeWord rest).1), (takeWord rest).2)
      else ([], c :: rest)

/-- Lazy scan to the first closing parenthesis followed only by
whitespace, returning the content before it. -/
def splitAtCloseParen : List Char → Option (List Char)
  | [] => none
  | c :: rest =>
      if c = ')' ∧ rest.dropWhile isWs = [] then some []
      else (splitAtCloseParen rest).map (c :: ·)

/-- The signature regex: optional spaces, a word, optional spaces, an
optional parenthesized parameter text, trailing spaces.  Returns the name
and the parameter text (none when the parentheses are absent). -/
def matchSignature (sig : String) : Option (String × Option String) :=
  let cs := sig.toList.dropWhile isWs
  let p := takeWord cs
  if p.1 = [] then none
  else
    let name := String.mk p.1
    match p.2.dropWhile isWs with
    | [] => some (name, none)
    | '(' :: inner => (splitAtCloseParen inner).map (fun c => (name, some (String.mk c)))
    | _ => none

/-- JS String.prototype.split on a comma. -/
def splitCommaAux : List Char → List Char → List String
  | [], acc => [String.mk acc.reverse]
  | c :: rest, acc =>
      if c = ',' then String.mk acc.reverse :: splitCommaAux rest []
      else splitCommaAux rest (c :: acc)

/-- Parameter list: comma split, trimmed, empties compacted away. -/
def parseParamList (inner : Option String) : List String :=
  ((splitCommaAux (inner.getD "").toList []).map jsTrim).filter (· ≠ "")

/-- Register one function definition, with the checks in source order:
signature match, builtin shadowing, duplicate name, body parse. -/
def processDefinition (fns : FnTable) (sig : String) (body : String) :
    Except Err FnTable :=
  match matchSignature sig with
  | none => throw (.invalidSignature sig)
  | some (name, inner) =>
      let args := parseParamList inner
      match args.find? (fun a => a ∈ builtinNames) with
      | some a => throw (.shadowsBuiltin a)
      | none =>
          if (alookup fns name).isSome then throw (.duplicateFunction name)
          else
            match parseExpression body with
            | none => throw (.inExpr (.parseFailure body) body)
            | some ast => pure (fns ++ [(name, ⟨args, ast⟩)])

/-- Fold the flattened definitions into the table. -/
def buildTable : List (String × String) → FnTable → Except Err FnTable
  | [], fns => pure fns
  | (sig, body) :: rest, fns => do
      let fns' ← processDefinition fns sig body
      buildTable rest fns'

/-- The builtin value-type functions pushed after the user definitions. -/
def builtinDefs : List (List (String × String)) :=
  [[("boolean", "next.isBoolean()")], [("string", "next.isString()")],
   [("number", "next.isNumber()")], [("any", "true")]]

/-- One pass of the quiescence loop over the named entries, each body
transformed against the current table. -/
def dfPassAux (fuel : Nat) (env : EnvMap) :
    List String → FnTable → Bool → Except Err (FnTable × Bool)
  | [], fns, ch => pure (fns, ch)
  | name :: rest, fns, ch =>
      match alookup fns name with
      | none => dfPassAux fuel env rest fns ch
      | some fd => do
          let (ast', c) ← transformAst fuel fns env fd.args none 0 false fd.ast
          dfPassAux fuel env rest (aset fns name ⟨fd.args, ast'⟩) (ch ∨ c)

/-- One full pass over the table in insertion order. -/
def dfPass (fuel : Nat) (env : EnvMap) (fns : FnTable) : Except Err (FnTable × Bool) :=
  dfPassAux fuel env (fns.map (·.1)) fns false

/-- The while-changed loop, with an iteration budget standing in for the
unbounded source loop; none means the budget ran out while still changing. -/
def dfLoop (fuel : Nat) (env : EnvMap) : Nat → FnTable → Except Err (Option FnTable)
  | 0, _ => pure none
  | n + 1, fns => do
      let (fns', ch) ← dfPass fuel env fns
      if ch then dfLoop fuel env n fns' else pure (some fns')

/-!
Keyword and key-suffix matching for the tree transformer: the leading
required, indexed, encrypted[...] keyword run of a value constraint, and
the /encrypted[...] and /few key suffixes, all mirroring the regexes of
the source including their lazy bracket groups and lookaheads.
-/

/-- Consume an exact character sequence. -/
def dropExact : List Char → List Char → Option (List Char)
  | [], cs => some cs
  | _ :: _, [] => none
  | l :: ls, c :: cs => if c = l then dropExact ls cs else none

/-- All splits of a bracket body at a closing bracket, shortest first
(the lazy alternatives); the first component includes the bracket. -/
def bracketSplits : List Char → List (List Char × List Char)
  | [] => []
  | c :: rest =>
      if c = ']' then
        ([c], rest) :: (bracketSplits rest).map (fun p => (c :: p.1, p.2))
      else (bracketSplits rest).map (fun p => (c :: p.1, p.2))

/-- The keyword separator: a whitespace run or the end of the string.
Returns the consumed separator characters and the remainder. -/
def kwSep (cs : List Char) : Option (List Char × List Char) :=
  match cs with
  | [] => some ([], [])
  | c :: _ =>
      if isWs c then some (cs.takeWhile isWs, cs.dropWhile isWs) else none

/-- Match one iteration of the keyword group: a keyword (with an optional
lazy bracket part after encrypted) followed by a separator.  Returns the
consumed characters and the rest. -/
def kwIter (cs : List Char) : Option (List Char × List Char) :=
  match dropExact "required".toList cs with
  | some r1 =>
      match kwSep r1 with
      | some (sep, r2) => some ("required".toList ++ sep, r2)
      | none => none
  | none =>
  match dropExact "indexed".toList cs with
  | some r1 =>
      match kwSep r1 with
      | some (sep, r2) => some ("indexed".toList ++ sep, r2)
      | none => none
  | none =>
  match dropExact "encrypted".toList cs with
  | some r1 =>
      match r1 with
      | '[' :: inner =>
          match (bracketSplits inner).findSome? (fun p =>
            (kwSep p.2).map (fun q => ("encrypted".toList ++ '[' :: p.1 ++ q.1, q.2))) with
          | some res => some res
          | none =>
              match kwSep r1 with
              | some (sep, r2) => some ("encrypted".toList ++ sep, r2)
              | none => none
      | _ =>
          match kwSep r1 with
          | some (sep, r2) => some ("encrypted".toList ++ sep, r2)
          | none => none
  | none => none

/-- Iterated keyword matching with a length budget (each iteration
consumes at least one character). -/
def kwLoop : Nat → List Char → (List Char × List Char)
  | 0, cs => ([], cs)
  | n + 1, cs =>
      match kwIter cs with
      | some (consumed, rest) =>
          let p := kwLoop n rest
          (consumed ++ p.1, p.2)
      | none => ([], cs)

/-- match[0] of the keyword-run regex and the remainder of the string. -/
def kwSplit (s : String) : String × String :=
  let cs := s.toList
  let ws := cs.takeWhile isWs
  let p := kwLoop (cs.length + 1) (cs.dropWhile isWs)
  (String.mk (ws ++ p.1), String.mk p.2)

/-- value.replace of the keyword run by the empty string. -/
def stripKeywords (s : String) : String := (kwSplit s).2

/-- The matched keyword run itself. -/
def kwMatch (s : String) : String := (kwSplit s).1

/-- Canonical form used by the duplicate check: the first lazy
encrypted[...] occurrence inside a token collapses to encrypted. -/
def collapseEncAux : List Char → List Char
  | [] => []
  | c :: rest =>
      match dropExact "encrypted[".toList (c :: rest) with
      | some inner =>
          match bracketSplits inner with
          | p :: _ => "encrypted".toList ++ p.2
          | [] => c :: collapseEncAux rest
      | none => c :: collapseEncAux rest

/-- Token canonicalization for the duplicated-keywords check. -/
def collapseEnc (s : String) : String := String.mk (collapseEncAux s.toList)

/-- The anchored encrypted keyword pattern of the keyword scan: exactly
encrypted, or encrypted with a bracketed pattern; empty patterns fall
back to the hash mark. -/
def encKeywordValue (kw : String) : Option String :=
  if kw = "encrypted" then some "#"
  else
    match dropExact "encrypted[".toList kw.toList with
    | some inner =>
        match (bracketSplits inner).reverse.find? (fun p => p.2 = []) with
        | some p =>
            let content := p.1.dropLast
            some (if content = [] then "#" else String.mk content)
        | none => none
    | none => none

/-- Last encrypt keyword of a token list wins (each match overwrites). -/
def lastEncValue (kws : List String) : Option String :=
  kws.foldl (fun acc kw => match encKeywordValue kw with
    | some v => some v
    | none => acc) none

/-- Try the /encrypted suffix at the head of the key characters: returns
the optional bracket content and the rest after the match. -/
def tryEncAt (cs : List Char) : Option (Option String × List Char) :=
  match dropExact "/encrypted".toList cs with
  | none => none
  | some r1 =>
      let lookahead : List Char → Bool := fun r =>
        match r with
        | [] => true
        | c :: _ => c = '/'
      match r1 with
      | '[' :: inner =>
          match (bracketSplits inner).find? (fun p => lookahead p.2) with
          | some p => some (some (String.mk p.1.dropLast), p.2)
          | none => if lookahead r1 then some (none, r1) else none
      | _ => if lookahead r1 then some (none, r1) else none

/-- First /encrypted[...] suffix occurrence in a key: the callback value
(pattern or hash) and the key with the match removed. -/
def stripEncSuffix : List Char → Option String × List Char
  | [] => (none, [])
  | c :: rest =>
      match tryEncAt (c :: rest) with
      | some (pat, after) => (some (pat.getD "#"), after)
      | none =>
          let p := stripEncSuffix rest
          (p.1, c :: p.2)

/-- First /few suffix occurrence: found flag and the key with the match
removed. -/
def stripFewSuffix : List Char → Bool × List Char
  | [] => (false, [])
  | c :: rest =>
      match dropExact "/few".toList (c :: rest) with
      | some r1 =>
          if r1 = [] ∨ r1.head? = some '/' then (true, r1)
          else
            let p := stripFewSuffix rest
            (p.1, c :: p.2)
      | none =>
          let p := stripFewSuffix rest
          (p.1, c :: p.2)

/-!
The tree transformer (Compiler.transformBranch) and the driver.
-/

/-- Compiler.expandExpression: booleans are stringified, non-strings are
rejected, the expression is parsed, transformed once, and serialized;
every error is annotated with the expression text.  A parse failure
surfaces as the TypeError raised by the catch block that dereferences the
still-unset parsed variable. -/
def expandExpression (fuel : Nat) (fns : FnTable) (env : EnvMap) (expression : Yaml)
    (locals : List String) (refs : RefMap) (level : Nat) (newData : Bool) :
    Except Err String :=
  let go : String → Except Err String := fun s =>
    match parseProgram s with
    | none => .error (.inExpr (.jsTypeError "message of undefined") s)
    | some ast =>
        match transformAst fuel fns env locals (some refs) level newData ast with
        | .error e => .error (.inExpr e s)
        | .ok p => .ok (generate p.1)
  match expression with
  | .bool b => go (if b then "true" else "false")
  | .str s => go s
  | _ => throw .expressionExpected

/-- Models value.charAt[0] === wildcard-mark: indexing the charAt function
object yields undefined, which never equals the mark, so the check cannot
fire (the preserved source defect on .ref values). -/
def charAtIndexZeroIsDollar (_v : String) : Bool := false

/-- Truthiness of a ref lookup (a level number): zero is falsy. -/
def refLookupTruthy (o : Option Nat) : Bool :=
  match o with
  | some n => n ≠ 0
  | none => false

/-- Conversion of a (compiled) YAML entry when copied into the output. -/
def yamlToJVal : Yaml → JVal
  | .str s => .str s
  | .bool b => .bool b
  | .num n => .num n
  | .null => .jnull
  | .map _ => .jnull

/-- Loop state of the entry iteration inside transformBranch. -/
structure BState where
  json : List (String × JVal)
  yaml : List (String × Yaml)
  refs : RefMap
  locals : List String
  requiredChildren : List String
  indexedChildren : List String
  indexedGrandChildren : List String
  moreAllowed : Bool
  hasWildcard : Bool
deriving Repr

/-- Quoted child-name list for the hasChildren synthesis. -/
def quotedList (names : List String) : String :=
  String.intercalate ", " (names.map (fun n => String.mk (sq :: n.toList ++ [sq])))

/-- Work items of the tree transformer: a branch, the entry loop, or one
entry of the switch. -/
inductive BJob where
  | branch (yamlIn : Yaml) (locals : List String) (refs : RefMap) (path : String) (level : Nat)
  | entries (es : List (String × Yaml)) (path : String) (level : Nat) (st : BState)
  | entry (key : String) (value : Yaml) (path : String) (level : Nat) (st : BState)

/-- Tree-transformer results: a finished node or a loop state. -/
inductive BRes where
  | node (json : JVal) (yamlOut : Yaml) (refs : RefMap)
  | state (st : BState)

/-- Projection of a loop-state result (the default is never used). -/
def BRes.getState : BRes → BState → BState
  | .state st, _ => st
  | _, d => d

/-- The suffix-stripped encrypted pattern of a child key. -/
def encPartOf (key : String) : Option String × List Char := stripEncSuffix key.toList

/-- The few flag and remaining characters of a child key. -/
def fewPartOf (key : String) : Bool × List Char := stripFewSuffix (encPartOf key).2

/-- A child key after stripping its suffixes. -/
def key2Of (key : String) : String := String.mk (fewPartOf key).2

/-- The path extension for a child node: brackets for a wildcard, a dot
otherwise. -/
def childPathOf (key : String) (path : String) : String :=
  if (key2Of key).toList.head? = some '$' then path ++ "[" ++ key2Of key ++ "]"
  else path ++ "." ++ key2Of key

/-- The wildcard bookkeeping of a child entry: the extended locals and the
new hasWildcard flag, rejecting a second wildcard. -/
def wildBindOf (key : String) (st : BState) : Except Err (List String × Bool) :=
  if (key2Of key).toList.head? = some '$' then
    (if st.hasWildcard then throw (Err.onlyOneWildcard (key2Of key))
     else pure (st.locals ++ [key2Of key], true))
  else pure (st.locals, st.hasWildcard)

/-- The value constraint text a child entry carries: a string value is the
constraint itself, a mapping contributes its .value string. -/
def constraintOf (value : Yaml) : Except Err (Option String) :=
  match value with
  | .str s => pure (some s)
  | .map es =>
      (match alookup es ".value" with
       | some (.str s) => pure (some s)
       | some v => if v.truthy then throw (Err.jsTypeError "match of a non-string")
                   else pure none
       | none => pure none)
  | _ => pure (none : Option String)

/-- The keyword processing of a child entry: duplicate keywords are
rejected, required on a wildcard is rejected, and the required, indexed
and encrypted-value results are collected. -/
def keywordsOf (key : String) (st : BState) (constraint : Option String) :
    Except Err (List String × List String × List String × Option String) :=
  match constraint with
  | none => pure (st.requiredChildren, st.indexedChildren, st.indexedGrandChildren, none)
  | some cs =>
      let m0 := kwMatch cs
      let kws := splitWs m0
      if kws.length > 1 ∧ (kws.map collapseEnc).eraseDups.length ≠ kws.length then
        throw (Err.duplicatedKeywords (key2Of key) m0)
      else
        let req := kws.contains "required"
        if req ∧ (key2Of key).toList.head? = some '$' then throw Err.requiredWildcard
        else
          let r := if req then st.requiredChildren ++ [key2Of key] else st.requiredChildren
          let p :=
            if kws.contains "indexed" then
              if (key2Of key).toList.head? = some '$' then
                (st.indexedChildren ++ [".value"], st.indexedGrandChildren)
              else (st.indexedChildren, st.indexedGrandChildren ++ [key2Of key])
            else (st.indexedChildren, st.indexedGrandChildren)
          pure (r, p.1, p.2, lastEncValue kws)

/-- The encrypt descriptor attached to a child node: key pattern, few flag
and value pattern. -/
def enc2Of (key : String) (encV : Option String) : List (String × JVal) :=
  let enc0 : List (String × JVal) :=
    match (encPartOf key).1 with
    | some pat => [("key", .str pat)]
    | none => []
  let enc1 := if (fewPartOf key).1 then aset enc0 "few" (.bool true) else enc0
  match encV with
  | some p => aset enc1 "value" (.str p)
  | none => enc1

/-- A child node with its encrypt descriptor attached when nonempty. -/
def childWrapOf (key : String) (encV : Option String) (childJson : JVal) : JVal :=
  match childJson with
  | .obj es =>
      if (enc2Of key encV).isEmpty then childJson
      else JVal.obj (aset es ".encrypt" (.obj (enc2Of key encV)))
  | _ => childJson

/-- The deep-index hoisting applied to a wrapped child node: a pending
.indexChildrenOn moves into the parent, as .indexOn entries under a
wildcard and as re-prefixed deep indexes otherwise. -/
def childAdjustOf (key : String) (encV : Option String) (idxC2 idxG2 : List String)
    (childJson : JVal) : JVal × List String × List String :=
  match childWrapOf key encV childJson with
  | .obj es =>
      (match alookup es ".indexChildrenOn" with
       | some (.arr xs) =>
           if (key2Of key).toList.head? = some '$' then
             (JVal.obj (adel es ".indexChildrenOn"), idxC2 ++ xs, idxG2)
           else (JVal.obj (adel es ".indexChildrenOn"), idxC2,
             idxG2 ++ xs.map (fun ik => key2Of key ++ "/" ++ ik))
       | _ => (childWrapOf key encV childJson, idxC2, idxG2))
  | _ => (childWrapOf key encV childJson, idxC2, idxG2)

/-- The promoted and ref-stripped node entries, split on .read/write. -/
def rwSplit (ym1 : List (String × Yaml)) : List (String × Yaml) :=
  match alookup ym1 ".read/write" with
  | none => ym1
  | some v => adel (aset (aset ym1 ".read" v) ".write" v) ".read/write"

/-- The loop state a branch starts its entry iteration with. -/
def initBState (ym2 : List (String × Yaml)) (refs1 : RefMap) (locals : List String) :
    BState :=
  { json := [], yaml := ym2, refs := refs1, locals := locals,
    requiredChildren := [], indexedChildren := [], indexedGrandChildren := [],
    moreAllowed := false, hasWildcard := false }

/-- The .ref validation of a node: the value must be a string, must not be
a wildcard (the defective charAt check), must not shadow a builtin and
must not already be in scope; it is bound at the current level and the
entry removed. -/
def refCheck (refs : RefMap) (ym0 : List (String × Yaml)) (level : Nat) :
    Except Err (Option String × RefMap × List (String × Yaml)) :=
  match alookup ym0 ".ref" with
  | none => pure (none, refs, ym0)
  | some v =>
      (match v with
       | .str s => pure s
       | _ => throw (Err.jsTypeError "charAt of a primitive")) >>= fun vs =>
      if charAtIndexZeroIsDollar vs then throw (Err.refWildcard vs)
      else if vs ∈ builtinNames then throw (Err.refShadowsBuiltin vs)
      else if refLookupTruthy (alookup refs vs) then throw (Err.refInScope vs)
      else pure (some vs, aset refs vs level, adel ym0 ".ref")

/-- The .read and .write emission after the entry loop, with the dead
conflicting-keys check of the source: the split already removed the
.read/write key, so the first branch cannot be taken. -/
def emitRW (path : String) (st : BState) : Except Err (List (String × JVal)) :=
  if (alookup st.yaml ".read/write").isSome then
    if (alookup st.yaml ".read").isSome ∨ (alookup st.yaml ".write").isSome then
      throw (Err.readWriteConflict path)
    else
      let v := yamlToJVal ((alookup st.yaml ".read/write").getD .null)
      pure (aset (aset st.json ".read" v) ".write" v)
  else
    let j1 :=
      match alookup st.yaml ".read" with
      | some v => aset st.json ".read" (yamlToJVal v)
      | none => st.json
    let j2 :=
      match alookup st.yaml ".write" with
      | some v => aset j1 ".write" (yamlToJVal v)
      | none => j1
    pure j2

/-- The node finishing steps: validation synthesis with hasChildren,
index emission, and the closing $other entry when neither moreAllowed nor
a wildcard child is present. -/
def finishJson (st : BState) (json1 : List (String × JVal)) : List (String × JVal) :=
  let validation0 :=
    match alookup st.yaml ".value" with
    | some (.str s) => s
    | _ => ""
  let validation :=
    if st.requiredChildren ≠ [] then
      (if validation0 ≠ "" then "(" ++ validation0 ++ ") && " else "")
        ++ "newData.hasChildren([" ++ quotedList st.requiredChildren ++ "])"
    else validation0
  let json2 :=
    if st.indexedChildren ≠ [] then
      aset json1 ".indexOn" (.arr st.indexedChildren)
    else json1
  let json3 :=
    if st.indexedGrandChildren ≠ [] then
      aset json2 ".indexChildrenOn" (.arr st.indexedGrandChildren)
    else json2
  let json4 :=
    if validation ≠ "" then aset json3 ".validate" (.str validation) else json3
  if ¬ st.moreAllowed ∧ ¬ st.hasWildcard then
    aset json4 "$other" (.obj [(".validate", .bool false)])
  else json4

/-- The refs object a branch hands back: its own binding removed. -/
def refDrop (localRef : Option String) (refs : RefMap) : RefMap :=
  match localRef with
  | some r => adel refs r
  | none => refs

/-- The mutated node a branch hands back: a string node is returned
unchanged, a mapping carries the rewritten entries. -/
def outYaml (yamlIn : Yaml) (st : BState) : Yaml :=
  match yamlIn with
  | .str _ => yamlIn
  | _ => .map st.yaml

/-- Compiler.transformBranch together with its entry loop.  A branch job
returns the built JSON node, the mutated source node (strings are
promoted only into a local, so a string node returns unchanged), and the
refs object after the subtree.  The monadic steps are spelled with
explicit binds over the named fragments above. -/
def branchGo (fns : FnTable) (env : EnvMap) : Nat → BJob → Except Err BRes
  | 0, _ => throw .outOfFuel
  | fuel + 1, .branch yamlIn locals refs path level =>
      (match yamlIn with
       | .str s => pure [(".value", Yaml.str s)]
       | .map es => pure es
       | _ => throw (Err.jsTypeError "in operator on a primitive")) >>= fun ym0 =>
      refCheck refs ym0 level >>= fun lrr =>
      branchGo fns env fuel (.entries (rwSplit lrr.2.2) path level
        (initBState (rwSplit lrr.2.2) lrr.2.1 locals)) >>= fun rst =>
      emitRW path (rst.getState (initBState (rwSplit lrr.2.2) lrr.2.1 locals)) >>=
        fun json1 =>
      pure (.node
        (.obj (finishJson (rst.getState (initBState (rwSplit lrr.2.2) lrr.2.1 locals)) json1))
        (outYaml yamlIn (rst.getState (initBState (rwSplit lrr.2.2) lrr.2.1 locals)))
        (refDrop lrr.1 (rst.getState (initBState (rwSplit lrr.2.2) lrr.2.1 locals)).refs))
  | _ + 1, .entries [] _ _ st => pure (.state st)
  | fuel + 1, .entries ((key, value) :: rest) path level st =>
      (match branchGo fns env fuel (.entry key value path level st) with
        | .error e => .error (e.locate path)
        | .ok r => .ok (r.getState st)) >>= fun st2 =>
      branchGo fns env fuel (.entries rest path level st2)
  | fuel + 1, .entry key value path level st =>
      if key = ".value" then
        match value with
        | .str s =>
            expandExpression fuel fns env (.str (stripKeywords s))
                st.locals st.refs level true >>= fun txt =>
              pure (.state { st with
                moreAllowed := if jsTrim (stripKeywords s) = "any" then true else st.moreAllowed,
                yaml := aset st.yaml key (.str txt) })
        | .bool b =>
            -- a YAML boolean has no replace method
            throw (Err.jsTypeError ("replace of " ++ (if b then "true" else "false")))
        | _ => throw (Err.jsTypeError "replace of a non-string")
      else if key = ".write" then
        expandExpression fuel fns env value st.locals st.refs level true >>= fun txt =>
          pure (.state { st with yaml := aset st.yaml key (.str txt) })
      else if key = ".read" then
        expandExpression fuel fns env value st.locals st.refs level false >>= fun txt =>
          pure (.state { st with yaml := aset st.yaml key (.str txt) })
      else if key = ".more" then
        pure (.state { st with moreAllowed := value.truthy })
      else
        if (fewPartOf key).1 ∧ key.toList.head? ≠ some '$' then
          throw (Err.fewOnNonWildcard key)
        else if (key2Of key).toList.head? = some '.' then
          throw (Err.unknownControlKey (key2Of key))
        else
          wildBindOf key st >>= fun lw =>
          constraintOf value >>= fun con =>
          keywordsOf key st con >>= fun rie =>
          (match branchGo fns env fuel (.branch value lw.1 st.refs
              (childPathOf key path) (level + 1)) with
            | .error e => .error e
            | .ok (.node j y r) => .ok (j, y, r)
            | .ok (.state _) => .error Err.outOfFuel) >>= fun cjyr =>
          pure (.state { st with
            json := aset st.json (key2Of key)
              (childAdjustOf key rie.2.2.2 rie.2.1 rie.2.2.1 cjyr.1).1,
            yaml := aset st.yaml key cjyr.2.1,
            refs := cjyr.2.2,
            locals := lw.1,
            requiredChildren := rie.1,
            indexedChildren := (childAdjustOf key rie.2.2.2 rie.2.1 rie.2.2.1 cjyr.1).2.1,
            indexedGrandChildren := (childAdjustOf key rie.2.2.2 rie.2.1 rie.2.2.1 cjyr.1).2.2,
            hasWildcard := lw.2 })

/-- Compiler.transformBranch: the branch job of the tree transformer. -/
def transformBranch (fns : FnTable) (env : EnvMap) (fuel : Nat) (yamlIn : Yaml)
    (locals : List String) (refs : RefMap) (path : String) (level : Nat) :
    Except Err (JVal × Yaml × RefMap) :=
  match branchGo fns env fuel (.branch yamlIn locals refs path level) with
  | .error e => .error e
  | .ok (.node j y r) => .ok (j, y, r)
  | .ok (.state _) => .error Err.outOfFuel

mutual

/-- Compiler.extractEncryptDirectives over the entries of an object:
returns the stripped entries and the collected encrypt entries. -/
def extractLoop : List (String × JVal) → List (String × JVal) × List (String × JVal)
  | [] => ([], [])
  | (k, v) :: rest =>
      if k = ".encrypt" then
        let tail := extractLoop rest
        -- the descriptor is copied verbatim when truthy and deleted after
        (tail.1, if v.truthy then (k, v) :: tail.2 else tail.2)
      else
        let p := extractEnc v
        let tail := extractLoop rest
        ((k, p.1) :: tail.1,
          match p.2 with
          | some t => (k, t) :: tail.2
          | none => tail.2)

/-- Compiler.extractEncryptDirectives: the stripped tree and the parallel
encrypt tree (none when empty). -/
def extractEnc : JVal → JVal × Option JVal
  | .obj es =>
      let p := extractLoop es
      (.obj p.1, if p.2.isEmpty then none else some (.obj p.2))
  | v => (v, none)

end

/-- The two output trees. -/
structure Output where
  rules : JVal
  firecrypt : Option JVal
deriving Repr

/-- The input document: the functions sequence (a list of mappings from
signature to body) and the root rule tree. -/
structure Doc where
  functions : Option (List (List (String × String)))
  root : Yaml
deriving Repr

/-- Compiler.transform, the public compile entry point: builds the
function table (mutating the document's functions sequence), transforms
the root, rejects dangling deep indexes, and extracts the firecrypt tree.
Returns the outputs together with the mutated document. -/
def compile (fuel : Nat) (env : EnvMap) (doc : Doc) : Except Err (Output × Doc) := do
  let allDefs := (doc.functions.getD []) ++ builtinDefs
  let t0 ← buildTable allDefs.flatten []
  let fns ←
    match ← dfLoop fuel env fuel t0 with
    | none => throw Err.outOfFuel
    | some t => pure t
  let (tree, root', _refsOut) ← transformBranch fns env fuel doc.root [] [] "root" 0
  match tree with
  | .obj es =>
      match alookup es ".indexChildrenOn" with
      | some v =>
          if v.truthy then throw Err.danglingIndex
          else do
            let p := extractEnc tree
            pure ({ rules := p.1, firecrypt := p.2 }, { functions := some allDefs, root := root' })
      | none => do
          let p := extractEnc tree
          pure ({ rules := p.1, firecrypt := p.2 }, { functions := some allDefs, root := root' })
  | _ => do
      let p := extractEnc tree
      pure ({ rules := p.1, firecrypt := p.2 }, { functions := some allDefs, root := root' })

/-!
Observation helpers and the concrete documents the claims are settled on.
-/

/-- Walk an output tree along a key path. -/
def jpath : JVal → List String → Option JVal
  | v, [] => some v
  | .obj es, k :: p =>
      match alookup es k with
      | some v => jpath v p
      | none => none
  | _, _ => none

/-- The rules tree of a compile outcome, walked along a key path. -/
def rulesAt (r : Except Err (Output × Doc)) (path : List String) : Option JVal :=
  match r with
  | .ok (out, _) => jpath out.rules path
  | .error _ => none

/-- A document with mutually recursive functions a and b. -/
def cyclicDoc : Doc :=
  { functions := some [[("a", "b")], [("b", "a")]], root := .str "string" }

/-- The function table right after registration for cyclicDoc. -/
def cycT0 : FnTable :=
  [("a", { args := [], ast := .ident "b" false }),
   ("b", { args := [], ast := .ident "a" false }),
   ("boolean", { args := [], ast := .call (.member (.ident "next" false) false
      (.ident "isBoolean" false) false) [] false }),
   ("string", { args := [], ast := .call (.member (.ident "next" false) false
      (.ident "isString" false) false) [] false }),
   ("number", { args := [], ast := .call (.member (.ident "next" false) false
      (.ident "isNumber" false) false) [] false }),
   ("any", { args := [], ast := .lit (.bool true) })]

/-- The same table after one pass of the quiescence loop: a and b rewrite
to each other and back, so every further pass reports a change. -/
def cycT1 : FnTable :=
  [("a", { args := [], ast := .ident "a" false }),
   ("b", { args := [], ast := .ident "a" false }),
   ("boolean", { args := [], ast := .call (.member (.ident "newData" true) false
      (.ident "isBoolean" false) false) [] false }),
   ("string", { args := [], ast := .call (.member (.ident "newData" true) false
      (.ident "isString" false) false) [] false }),
   ("number", { args := [], ast := .call (.member (.ident "newData" true) false
      (.ident "isNumber" false) false) [] false }),
   ("any", { args := [], ast := .lit (.bool true) })]

/-- A node carrying both .read/write and .read. -/
def readWriteDoc : Doc :=
  { functions := none,
    root := .map [("x", .map [(".read/write", .str "true"), (".read", .str "false")])] }

/-- The percentage document of the concrete scenario. -/
def percentageDoc : Doc :=
  { functions := some [[("percentage", "number && next >= 0 && next <= 100")]],
    root := .map [("v", .str "required percentage")] }

/-- A child whose whole value constraint is the keyword any. -/
def anyDoc : Doc :=
  { functions := none, root := .map [("x", .str "any")] }

/-- A wildcard capture used as a computed index in a value context. -/
def wildcardIndexDoc : Doc :=
  { functions := none,
    root := .map [("$bar", .map [("v", .map [(".value", .str "data.foo[$bar]")])])] }

/-- A ref whose value begins with the wildcard mark. -/
def dollarRefDoc : Doc :=
  { functions := none,
    root := .map [(".ref", .str "$r"), ("x", .str "string")] }

/-- A document with one encrypted value and one encrypted key. -/
def encryptedDoc : Doc :=
  { functions := none,
    root := .map [("secret", .str "encrypted string"), ("k2/encrypted", .str "number")] }

/-- A document defining boolean after an entry with a broken signature. -/
def badSigDoc : Doc :=
  { functions := some [[("((", "true")], [("boolean", "true")]], root := .str "string" }

/-- A document overriding the builtin number function. -/
def overrideNumberDoc : Doc :=
  { functions := some [[("number", "true")]], root := .str "string" }

/-- A small well-formed document for the determinism witness. -/
def determinismDoc : Doc :=
  { functions := none, root := .map [("foo", .str "string")] }

/-- A small well-formed document for the mutation witness. -/
def mutationDoc : Doc :=
  { functions := none,
    root := .map [("m", .map [(".read", .str "true"), (".value", .str "string")])] }

/-- The entry list transformBranch iterates: the string shorthand
promoted, the .ref entry removed, and .read/write split into both keys.
This is the loop input whenever the ref checks pass. -/
def branchEntries (yamlIn : Yaml) : List (String × Yaml) :=
  let ym0 :=
    match yamlIn with
    | .str s => [(".value", Yaml.str s)]
    | .map es => es
    | _ => []
  let ym1 := if (alookup ym0 ".ref").isSome then adel ym0 ".ref" else ym0
  match alookup ym1 ".read/write" with
  | none => ym1
  | some v => adel (aset (aset ym1 ".read" v) ".write" v) ".read/write"

/-- The moreAllowed flag as the entry loop computes it: set by a .value
whose keyword-stripped body trims to any, and assigned from every .more
entry (a later .more can reset it). -/
def moreOfEntries : List (String × Yaml) → Bool → Bool
  | [], m => m
  | (k, v) :: rest, m =>
      if k = ".value" then
        moreOfEntries rest
          (match v with
           | .str s => if jsTrim (stripKeywords s) = "any" then true else m
           | _ => m)
      else if k = ".write" ∨ k = ".read" ∨ k = ".more" then
        (if k = ".more" then moreOfEntries rest v.truthy else moreOfEntries rest m)
      else moreOfEntries rest m

/-- The hasWildcard flag as the entry loop computes it: some child key,
after suffix stripping, begins with the wildcard mark. -/
def wildOfEntries : List (String × Yaml) → Bool → Bool
  | [], w => w
  | (k, _) :: rest, w =>
      if k = ".value" ∨ k = ".write" ∨ k = ".read" ∨ k = ".more" then
        wildOfEntries rest w
      else
        let key2 := (stripFewSuffix (stripEncSuffix k.toList).2).2
        wildOfEntries rest (w ∨ key2.head? = some '$')

/-- The first builtin value-type name already present in a table, in the
order the builtins are pushed. -/
def firstBuiltinIn (t : FnTable) : Option String :=
  if (alookup t "boolean").isSome then some "boolean"
  else if (alookup t "string").isSome then some "string"
  else if (alookup t "number").isSome then some "number"
  else if (alookup t "any").isSome then some "any"
  else none

/-- Distinctness of a key list. -/
def distinctKeys : List String → Bool
  | [] => true
  | k :: rest => (¬ rest.contains k) && distinctKeys rest

mutual

/-- Recursively well-formed object: distinct keys at every level.  Every
tree the compiler builds satisfies this; it rules out association-list
junk a JavaScript object cannot represent. -/
def nodupRecB : JVal → Bool
  | .obj es => distinctKeys (es.map (·.1)) && nodupEntriesB es
  | _ => true

/-- Well-formedness of the entry values. -/
def nodupEntriesB : List (String × JVal) → Bool
  | [] => true
  | (_, v) :: rest => nodupRecB v && nodupEntriesB rest

end

mutual

/-- No .encrypt key anywhere in the tree. -/
def noEncB : JVal → Bool
  | .obj es => noEncEntriesB es
  | _ => true

/-- No .encrypt key anywhere in the entries. -/
def noEncEntriesB : List (String × JVal) → Bool
  | [] => true
  | (k, v) :: rest => (k ≠ ".encrypt" : Bool) && noEncB v && noEncEntriesB rest

end

/-- Does the tree carry a truthy .encrypt descriptor at this key path? -/
def encAtB : JVal → List String → Bool
  | .obj es, [] =>
      (match alookup es ".encrypt" with
       | some v => v.truthy
       | none => false)
  | .obj es, k :: p =>
      (match alookup es k with
       | some v => encAtB v p
       | none => false)
  | _, _ => false

/-- Descriptor test through the optional firecrypt tree. -/
def encOf (o : Option JVal) (p : List String) : Bool :=
  match o with
  | some f => encAtB f p
  | none => false

/-- The closing node injected for undeclared children. -/
def otherNode : JVal := .obj [(".validate", .bool false)]

/-- The builtin function table as registered (bodies parsed, untransformed). -/
def builtinsT0 : FnTable :=
  [("boolean", { args := [], ast := .call (.member (.ident "next" false) false
      (.ident "isBoolean" false) false) [] false }),
   ("string", { args := [], ast := .call (.member (.ident "next" false) false
      (.ident "isString" false) false) [] false }),
   ("number", { args := [], ast := .call (.member (.ident "next" false) false
      (.ident "isNumber" false) false) [] false }),
   ("any", { args := [], ast := .lit (.bool true) })]

/-- The builtin table after the quiescence loop: next renamed to newData
and marked snapshot-typed. -/
def builtinsT : FnTable :=
  [("boolean", { args := [], ast := .call (.member (.ident "newData" true) false
      (.ident "isBoolean" false) false) [] false }),
   ("string", { args := [], ast := .call (.member (.ident "newData" true) false
      (.ident "isString" false) false) [] false }),
   ("number", { args := [], ast := .call (.member (.ident "newData" true) false
      (.ident "isNumber" false) false) [] false }),
   ("any", { args := [], ast := .lit (.bool true) })]

/-- The percentage body as registered (parsed, untransformed). -/
def percBody0 : Ast :=
  .logical "&&"
    (.logical "&&" (.ident "number" false)
      (.binary ">=" (.ident "next" false) (.lit (.num 0))))
    (.binary "<=" (.ident "next" false) (.lit (.num 100)))

/-- The percentage body after the quiescence loop: number inlined in the
first pass with the then-raw builtin body, everything renamed, lifted and
coerced by the later passes. -/
def percBody : Ast :=
  .logical "&&"
    (.logical "&&"
      (.call (.member (.ident "newData" true) false (.ident "isNumber" false) false) [] false)
      (.binary ">="
        (.call (.member (.ident "newData" true) false (.ident "val" false) false) [] false)
        (.lit (.num 0))))
    (.binary "<="
      (.call (.member (.ident "newData" true) false (.ident "val" false) false) [] false)
      (.lit (.num 100)))

/-- The percentage table as registered. -/
def percT0 : FnTable :=
  ("percentage", { args := [], ast := percBody0 }) :: builtinsT0

/-- The percentage table after the quiescence loop. -/
def percT : FnTable :=
  ("percentage", { args := [], ast := percBody }) :: builtinsT

/-- The boolean builtin as registered. -/
def regBoolean : String × FuncDef :=
  ("boolean", { args := [], ast := .call (.member (.ident "next" false)
    false (.ident "isBoolean" false) false) [] false })

/-- The string builtin as registered. -/
def regString : String × FuncDef :=
  ("string", { args := [], ast := .call (.member (.ident "next" false)
    false (.ident "isString" false) false) [] false })

/-- The number builtin as registered. -/
def regNumber : String × FuncDef :=
  ("number", { args := [], ast := .call (.member (.ident "next" false)
    false (.ident "isNumber" false) false) [] false })

/-- The any builtin as registered. -/
def regAny : String × FuncDef :=
  ("any", { args := [], ast := .lit (.bool true) })

/-- The expression a control entry hands to the expander. -/
def ctrlInput : String → Yaml → Yaml
  | ".value", .str s => .str (stripKeywords s)
  | _, v => v

/-- The mutationDoc document as compile leaves it. -/
def mutatedDoc : Doc :=
  { functions := some [[("boolean", "next.isBoolean()")], [("string", "next.isString()")],
      [("number", "next.isNumber()")], [("any", "true")]],
    root := Yaml.map [("m", Yaml.map [(".read", Yaml.str "true"),
      (".value", Yaml.str "newData.isString()")])] }

/-- Well-formedness of a JSON entry list: distinct keys, recursively
well-formed values. -/
def invJ (l : List (String × JVal)) : Prop :=
  distinctKeys (l.map Prod.fst) = true ∧ nodupEntriesB l = true

/-- Input well-formedness of a tree-transformer job: loop jobs carry a
well-formed JSON accumulator. -/
def jobNodupIn : BJob → Prop
  | .branch _ _ _ _ _ => True
  | .entries _ _ _ st => invJ st.json
  | .entry _ _ _ _ st => invJ st.json

/-- Output well-formedness: a finished branch node is recursively
well-formed, a loop state keeps its accumulator well-formed. -/
def resNodupOut : BJob → BRes → Prop
  | .branch _ _ _ _ _, .node j _ _ => nodupRecB j = true
  | .branch _ _ _ _ _, .state _ => True
  | _, .state st2 => invJ st2.json
  | _, .node _ _ _ => True

/-- The successful result of compiling the encrypted document. -/
def encResult : Output × Doc :=
  match compile 24 [] encryptedDoc with
  | .ok r => r
  | .error _ => ({ rules := .jnull, firecrypt := none }, encryptedDoc)

/-!
Theorems.
-/

set_option maxHeartbeats 8000000

/-- The builtin table stabilizes within the standard budget. -/
theorem dfLoop_defaults : dfLoop 24 [] 24 builtinsT0 = .ok (some builtinsT) := rfl

/-- Table registration for the percentage document. -/
theorem buildTable_percentage :
    buildTable ((percentageDoc.functions.getD [] ++ builtinDefs).flatten) [] =
      .ok percT0 := rfl

/-- The percentage table stabilizes within the standard budget. -/
theorem dfLoop_percentage : dfLoop 24 [] 24 percT0 = .ok (some percT) := rfl

/-- C3: For the document with the percentage function and a required
percentage child v, compile succeeds, v gets the validation
newData.isNumber() && newData.val() >= 0 && newData.val() <= 100, and the
root gets newData.hasChildren listing the required child v. -/
theorem c3_percentage_pipeline :
    (compile 24 [] percentageDoc).isOk = true ∧
    rulesAt (compile 24 [] percentageDoc) ["v", ".validate"] =
      some (.str "newData.isNumber() && newData.val() >= 0 && newData.val() <= 100") ∧
    rulesAt (compile 24 [] percentageDoc) [".validate"] =
      some (.str "newData.hasChildren(['v'])") := by
  have h3 : transformBranch percT [] 24 percentageDoc.root [] [] "root" 0 =
      .ok (.obj [("v", .obj [(".validate",
              .str "newData.isNumber() && newData.val() >= 0 && newData.val() <= 100"),
            ("$other", otherNode)]),
          (".validate", .str "newData.hasChildren(['v'])"),
          ("$other", otherNode)],
        .map [("v", .str "required percentage")], []) := rfl
  refine ⟨?_, ?_, ?_⟩ <;>
    simp only [compile, bind, Except.bind, pure, Except.pure,
      buildTable_percentage, dfLoop_percentage, h3] <;> rfl

/-- C2 (code bug): a node carrying both .read/write and .read compiles
successfully, with the .read entry silently replaced by the .read/write
expression; the conflicting-keys check of the source is dead because the
split deletes the .read/write key before the check reads it. -/
theorem c2_conflict_not_detected :
    (compile 24 [] readWriteDoc).isOk = true ∧
    rulesAt (compile 24 [] readWriteDoc) ["x", ".read"] = some (.str "true") ∧
    rulesAt (compile 24 [] readWriteDoc) ["x", ".write"] = some (.str "true") := by
  have h1 : buildTable ((readWriteDoc.functions.getD [] ++ builtinDefs).flatten) [] =
      .ok builtinsT0 := rfl
  have h3 : transformBranch builtinsT [] 24 readWriteDoc.root [] [] "root" 0 =
      .ok (.obj [("x", .obj [(".read", .str "true"), (".write", .str "true"),
            ("$other", otherNode)]),
          ("$other", otherNode)],
        .map [("x", .map [(".read", .str "true"), (".write", .str "true")])], []) := rfl
  refine ⟨?_, ?_, ?_⟩ <;>
    simp only [compile, bind, Except.bind, pure, Except.pure, h1, dfLoop_defaults, h3] <;> rfl

/-- C4 counterexample: in the compiled anyDoc the output node x has no
wildcard child and no .more entry, yet carries no closing entry for
undeclared children, because its .value of any set the more-allowed flag. -/
theorem c4_counterexample :
    rulesAt (compile 24 [] anyDoc) ["x"] = some (.obj [(".validate", .str "true")]) := by
  have h1 : buildTable ((anyDoc.functions.getD [] ++ builtinDefs).flatten) [] =
      .ok builtinsT0 := rfl
  have h3 : transformBranch builtinsT [] 24 anyDoc.root [] [] "root" 0 =
      .ok (.obj [("x", .obj [(".validate", .str "true")]), ("$other", otherNode)],
        .map [("x", .str "any")], []) := rfl
  simp only [compile, bind, Except.bind, pure, Except.pure, h1, dfLoop_defaults, h3]
  rfl

/-- C5 counterexample: the computed wildcard index is emitted verbatim,
not coerced with val(); the emitted text differs from the claimed one. -/
theorem c5_counterexample :
    expandExpression 24 [] [] (.str "data.foo[$bar]") ["$bar"] [] 1 true =
      .ok "data.child('foo').child($bar).val()" ∧
    "data.child('foo').child($bar).val()" ≠
      "data.child('foo').child($bar.val()).val()" :=
  ⟨rfl, by decide⟩

/-- C5 amended: in a value context with the wildcard in scope, data.foo
with the computed index compiles to the child chain with the wildcard
inserted verbatim and a final val() on the whole chain: in-scope locals
are left alone by the transformer, so no coercion applies to the index. -/
theorem c5_wildcard_index_verbatim :
    rulesAt (compile 24 [] wildcardIndexDoc) ["$bar", "v", ".validate"] =
      some (.str "data.child('foo').child($bar).val()") := by
  have h1 : buildTable ((wildcardIndexDoc.functions.getD [] ++ builtinDefs).flatten) [] =
      .ok builtinsT0 := rfl
  have h3 : transformBranch builtinsT [] 24 wildcardIndexDoc.root [] [] "root" 0 =
      .ok (.obj [("$bar", .obj [("v", .obj [(".validate",
              .str "data.child('foo').child($bar).val()"), ("$other", otherNode)]),
            ("$other", otherNode)])],
        .map [("$bar", .map [("v", .map [(".value",
          .str "data.child('foo').child($bar).val()")])])], []) := rfl
  simp only [compile, bind, Except.bind, pure, Except.pure, h1, dfLoop_defaults, h3]
  rfl

/-- C6 (code bug): a .ref value beginning with the wildcard mark is
accepted and the document compiles, because the source indexes the charAt
function instead of calling it, so the comparison never fires. -/
theorem c6_dollar_ref_accepted :
    (compile 24 [] dollarRefDoc).isOk = true ∧
    rulesAt (compile 24 [] dollarRefDoc) ["x", ".validate"] =
      some (.str "newData.isString()") := by
  have h1 : buildTable ((dollarRefDoc.functions.getD [] ++ builtinDefs).flatten) [] =
      .ok builtinsT0 := rfl
  have h3 : transformBranch builtinsT [] 24 dollarRefDoc.root [] [] "root" 0 =
      .ok (.obj [("x", .obj [(".validate", .str "newData.isString()"),
            ("$other", otherNode)]),
          ("$other", otherNode)],
        .map [("x", .str "string")], []) := rfl
  refine ⟨?_, ?_⟩ <;>
    simp only [compile, bind, Except.bind, pure, Except.pure, h1, dfLoop_defaults, h3] <;> rfl

/-- C10 counterexample: a document that defines boolean but has an
earlier entry with an invalid signature fails with the invalid-signature
error, not with a duplicate-function-definition error. -/
theorem c10_counterexample :
    compile 24 [] badSigDoc = .error (.invalidSignature "((") ∧
    isDuplicateFunctionError (compile 24 [] badSigDoc) = false := by
  have h1 : buildTable ((badSigDoc.functions.getD [] ++ builtinDefs).flatten) [] =
      .error (.invalidSignature "((") := rfl
  refine ⟨?_, ?_⟩ <;>
    simp only [compile, bind, Except.bind, pure, Except.pure, h1] <;> rfl

/-- Registration of the cyclic document's functions. -/
theorem cyc_build :
    buildTable ((cyclicDoc.functions.getD [] ++ builtinDefs).flatten) [] = .ok cycT0 := rfl

/-- The first pass over the cyclic table rewrites both function names to
calls and inlines them back to bare identifiers, reporting a change. -/
theorem cyc_pass0 (f : Nat) :
    dfPass (f + 1 + 1 + 1 + 1 + 1 + 1) [] cycT0 = .ok (cycT1, true) := by
  simp [dfPass, dfPassAux, transformAst, travGo, enterNode, leaveNode, substNode, substKids,
    alookup, aset, coercible, Ast.getSnap, Ast.isMember, calleeIsChildParent, zipBindings,
    cycT0, cycT1, builtinNames, TRes.getOne, TRes.getMany,
    bind, Except.bind, pure, Except.pure]

/-- The cyclic table is a fixed point of the pass that still reports a
change: a keeps rewriting to a() and inlining back to a, whatever the
per-pass traversal budget. -/
theorem cyc_pass1 (f : Nat) :
    dfPass (f + 1 + 1 + 1 + 1 + 1 + 1) [] cycT1 = .ok (cycT1, true) := by
  simp [dfPass, dfPassAux, transformAst, travGo, enterNode, leaveNode, substNode, substKids,
    alookup, aset, coercible, Ast.getSnap, Ast.isMember, calleeIsChildParent, zipBindings,
    cycT1, builtinNames, TRes.getOne, TRes.getMany,
    bind, Except.bind, pure, Except.pure]

/-- No iteration budget suffices for the while-changed loop from the
once-passed cyclic table: it neither quiesces nor throws. -/
theorem cyc_loop1 (f : Nat) :
    ∀ n, dfLoop (f + 1 + 1 + 1 + 1 + 1 + 1) [] n cycT1 = .ok none := by
  intro n
  induction n with
  | zero => rfl
  | succ n ih => simp [dfLoop, cyc_pass1 f, ih, bind, Except.bind]

/-- Likewise from the freshly registered cyclic table. -/
theorem cyc_loop0 (f : Nat) :
    ∀ n, dfLoop (f + 1 + 1 + 1 + 1 + 1 + 1) [] n cycT0 = .ok none := by
  intro n
  cases n with
  | zero => rfl
  | succ n => simp [dfLoop, cyc_pass0 f, cyc_loop1 f n, bind, Except.bind]

/-- C1 (code bug): on the mutually recursive pair a and b the
while-changed loop of defineFunctions never terminates: every pass still
reports a change and no recursion error is ever thrown, so compile
exhausts any iteration budget instead of failing with a recursion error
as the specification requires. -/
theorem c1_cyclic_functions_never_quiesce (f : Nat) :
    compile (f + 6) [] cyclicDoc = .error .outOfFuel := by
  have h6 : f + 6 = f + 1 + 1 + 1 + 1 + 1 + 1 := rfl
  rw [h6]
  simp only [compile, bind, Except.bind, pure, Except.pure, cyc_build,
    cyc_loop0 f (f + 1 + 1 + 1 + 1 + 1 + 1)]

/-- C8: a compilation is a pure function of the document value and the
environment snapshot: two compiles of equal documents under the same
environment yield structurally equal outcomes.  The substance is that the
whole pipeline is embeddable as a pure function of exactly these inputs. -/
theorem c8_deterministic (fuel : Nat) (env : EnvMap) (d1 d2 : Doc) (h : d1 = d2) :
    compile fuel env d1 = compile fuel env d2 := by rw [h]

/-- Witness for C8 at a concrete document. -/
theorem c8_deterministic_witness :
    compile 24 [] determinismDoc = compile 24 [] determinismDoc :=
  c8_deterministic 24 [] determinismDoc determinismDoc rfl


/-- Setting a key makes it readable. -/
theorem alookup_aset_self {β : Type} (l : List (String × β)) (k : String) (v : β) :
    alookup (aset l k v) k = some v := by
  induction l with
  | nil => simp [aset, alookup]
  | cons hd t ih =>
      obtain ⟨k0, v0⟩ := hd
      by_cases hk : k0 = k
      · simp [aset, hk, alookup]
      · simp [aset, hk, alookup, ih]

/-- Setting one key leaves the others alone. -/
theorem alookup_aset_ne {β : Type} (l : List (String × β)) (k q : String) (v : β)
    (h : q ≠ k) : alookup (aset l k v) q = alookup l q := by
  induction l with
  | nil => simp [aset, alookup, Ne.symm h]
  | cons hd t ih =>
      obtain ⟨k0, v0⟩ := hd
      by_cases hk : k0 = k
      · subst hk
        simp [aset, alookup, Ne.symm h, ih]
      · by_cases hq : k0 = q <;> simp [aset, hk, alookup, hq, h, ih]

/-- Lookup over an append scans the front first. -/
theorem alookup_append {β : Type} (l1 l2 : List (String × β)) (k : String) :
    alookup (l1 ++ l2) k =
      match alookup l1 k with
      | some v => some v
      | none => alookup l2 k := by
  induction l1 with
  | nil => simp [alookup]
  | cons hd t ih =>
      obtain ⟨k0, v0⟩ := hd
      by_cases hk : k0 = k <;> simp [alookup, hk, ih]

/-- Appending a differently keyed entry does not change a lookup. -/
theorem alookup_append_single_ne {β : Type} (l : List (String × β)) (k q : String)
    (v : β) (h : k ≠ q) : alookup (l ++ [(k, v)]) q = alookup l q := by
  rw [alookup_append]
  cases hv : alookup l q <;> simp [alookup, h]

/-- A lookup that misses the appended tail searches the front only. -/
theorem alookup_append_right_none {β : Type} (l1 l2 : List (String × β)) (k : String)
    (h : alookup l2 k = none) : alookup (l1 ++ l2) k = alookup l1 k := by
  rw [alookup_append]
  cases hv : alookup l1 k <;> simp [h]

/-- A present key stays present under appends. -/
theorem alookup_mono_append {β : Type} (l1 l2 : List (String × β)) (k : String)
    (h : (alookup l1 k).isSome = true) : (alookup (l1 ++ l2) k).isSome = true := by
  rw [alookup_append]
  cases hv : alookup l1 k
  · rw [hv] at h; simp at h
  · simp

/-- A key absent from an association list cannot be looked up. -/
theorem alookup_eq_none {β : Type} (l : List (String × β)) (k : String) :
    alookup l k = none ↔ ¬ k ∈ l.map Prod.fst := by
  induction l with
  | nil => simp [alookup]
  | cons hd t ih =>
      obtain ⟨k0, v0⟩ := hd
      by_cases hk : k0 = k
      · simp [alookup, hk]
      · simp [alookup, hk, ih, Ne.symm hk]

/-- The flattened builtin definition list. -/
theorem builtinDefs_flatten : builtinDefs.flatten =
    [("boolean", "next.isBoolean()"), ("string", "next.isString()"),
     ("number", "next.isNumber()"), ("any", "true")] := rfl

/-- Registering the builtin boolean body against an arbitrary table. -/
theorem processDef_boolean (t : FnTable) :
    processDefinition t "boolean" "next.isBoolean()" =
      if (alookup t "boolean").isSome then .error (.duplicateFunction "boolean")
      else .ok (t ++ [regBoolean]) := rfl

/-- Registering the builtin string body against an arbitrary table. -/
theorem processDef_string (t : FnTable) :
    processDefinition t "string" "next.isString()" =
      if (alookup t "string").isSome then .error (.duplicateFunction "string")
      else .ok (t ++ [regString]) := rfl

/-- Registering the builtin number body against an arbitrary table. -/
theorem processDef_number (t : FnTable) :
    processDefinition t "number" "next.isNumber()" =
      if (alookup t "number").isSome then .error (.duplicateFunction "number")
      else .ok (t ++ [regNumber]) := rfl

/-- Registering the builtin any body against an arbitrary table. -/
theorem processDef_any (t : FnTable) :
    processDefinition t "any" "true" =
      if (alookup t "any").isSome then .error (.duplicateFunction "any")
      else .ok (t ++ [regAny]) := rfl

/-- Table registration distributes over an append of definition lists. -/
theorem buildTable_append (l1 l2 : List (String × String)) (fns : FnTable) :
    buildTable (l1 ++ l2) fns =
      match buildTable l1 fns with
      | .ok t => buildTable l2 t
      | .error e => .error e := by
  induction l1 generalizing fns with
  | nil => simp [buildTable, pure, Except.pure]
  | cons hd t ih =>
      obtain ⟨sig, body⟩ := hd
      simp only [List.cons_append, buildTable, bind, Except.bind]
      cases processDefinition fns sig body with
      | error e => rfl
      | ok f2 => exact ih f2

/-- A successful registration appends exactly one entry. -/
theorem processDef_extends {fns out : FnTable} {sig body : String}
    (h : processDefinition fns sig body = .ok out) : ∃ e, out = fns ++ [e] := by
  simp only [processDefinition, throw, throwThe, MonadExceptOf.throw, pure,
    Except.pure] at h
  split at h
  · exact absurd h (by simp)
  · split at h
    · exact absurd h (by simp)
    · split at h
      · exact absurd h (by simp)
      · split at h
        · exact absurd h (by simp)
        · exact ⟨_, (Except.ok.injEq _ _ ▸ h).symm⟩

/-- A successful table build extends the accumulator. -/
theorem buildTable_extends : ∀ (l : List (String × String)) (fns out : FnTable),
    buildTable l fns = .ok out → ∃ l2, out = fns ++ l2 := by
  intro l
  induction l with
  | nil =>
      intro fns out h
      simp only [buildTable, pure, Except.pure, Except.ok.injEq] at h
      exact ⟨[], by simp [h]⟩
  | cons hd t ih =>
      intro fns out h
      obtain ⟨sig, body⟩ := hd
      simp only [buildTable, bind, Except.bind] at h
      split at h
      · exact absurd h (by simp)
      · next f2 heq =>
          obtain ⟨e, he⟩ := processDef_extends heq
          obtain ⟨l2, hB⟩ := ih _ _ h
          subst he
          exact ⟨[e] ++ l2, by simp [hB]⟩

/-- Pushing the builtins onto a table that already defines one of them
fails with the duplicate error for the first such name. -/
theorem builtins_dup (T : FnTable) (nm : String) (h : firstBuiltinIn T = some nm) :
    buildTable builtinDefs.flatten T = .error (.duplicateFunction nm) := by
  rw [builtinDefs_flatten]
  unfold firstBuiltinIn at h
  by_cases hb : (alookup T "boolean").isSome = true
  · rw [if_pos hb] at h
    injection h with h
    subst h
    simp [buildTable, bind, Except.bind, processDef_boolean, hb]
  · rw [if_neg hb] at h
    have step1 : buildTable [("boolean", "next.isBoolean()"), ("string", "next.isString()"),
        ("number", "next.isNumber()"), ("any", "true")] T =
        buildTable [("string", "next.isString()"),
          ("number", "next.isNumber()"), ("any", "true")] (T ++ [regBoolean]) := by
      simp [buildTable, bind, Except.bind, processDef_boolean, hb]
    rw [step1]
    have hs1 : alookup (T ++ [regBoolean]) "string" = alookup T "string" :=
      alookup_append_right_none _ _ _ rfl
    by_cases hs : (alookup T "string").isSome = true
    · rw [if_pos hs] at h
      injection h with h
      subst h
      simp [buildTable, bind, Except.bind, processDef_string, hs1, hs]
    · rw [if_neg hs] at h
      have step2 : buildTable [("string", "next.isString()"),
            ("number", "next.isNumber()"), ("any", "true")] (T ++ [regBoolean]) =
          buildTable [("number", "next.isNumber()"), ("any", "true")]
            (T ++ [regBoolean, regString]) := by
        simp [buildTable, bind, Except.bind, processDef_string, hs1, hs]
      rw [step2]
      have hn1 : alookup (T ++ [regBoolean, regString]) "number" =
          alookup T "number" :=
        alookup_append_right_none _ _ _ rfl
      by_cases hn : (alookup T "number").isSome = true
      · rw [if_pos hn] at h
        injection h with h
        subst h
        simp [buildTable, bind, Except.bind, processDef_number, hn1, hn]
      · rw [if_neg hn] at h
        have step3 : buildTable [("number", "next.isNumber()"), ("any", "true")]
              (T ++ [regBoolean, regString]) =
            buildTable [("any", "true")]
              (T ++ [regBoolean, regString, regNumber]) := by
          simp [buildTable, bind, Except.bind, processDef_number, hn1, hn]
        rw [step3]
        have ha1 : alookup (T ++ [regBoolean, regString, regNumber]) "any" =
            alookup T "any" :=
          alookup_append_right_none _ _ _ rfl
        by_cases ha : (alookup T "any").isSome = true
        · rw [if_pos ha] at h
          injection h with h
          subst h
          simp [buildTable, bind, Except.bind, processDef_any, ha1, ha]
        · rw [if_neg ha] at h
          exact absurd h (by simp)

/-- Registering a single boolean definition leaves the name defined. -/
theorem buildTable_single_boolean (tu t1 : FnTable)
    (h : buildTable [("boolean", "next.isBoolean()")] tu = .ok t1) :
    (alookup t1 "boolean").isSome = true := by
  simp only [buildTable, bind, Except.bind, processDef_boolean, pure, Except.pure] at h
  by_cases hb : (alookup tu "boolean").isSome = true
  · rw [if_pos hb] at h
    exact absurd h (by simp)
  · rw [if_neg hb] at h
    simp only [Except.ok.injEq] at h
    subst h
    rw [alookup_append]
    cases hv : alookup tu "boolean"
    · simp [alookup, regBoolean]
    · rw [hv] at hb; simp at hb

/-- After a successful builtin push the table defines boolean. -/
theorem builtins_after (tu t0 : FnTable)
    (h : buildTable builtinDefs.flatten tu = .ok t0) :
    (alookup t0 "boolean").isSome = true := by
  rw [builtinDefs_flatten] at h
  have hsplit : ([("boolean", "next.isBoolean()"), ("string", "next.isString()"),
      ("number", "next.isNumber()"), ("any", "true")] : List (String × String)) =
      [("boolean", "next.isBoolean()")] ++ [("string", "next.isString()"),
      ("number", "next.isNumber()"), ("any", "true")] := rfl
  rw [hsplit, buildTable_append] at h
  revert h
  cases h1 : buildTable [("boolean", "next.isBoolean()")] tu with
  | error e => intro h; exact absurd h (by simp)
  | ok t1 =>
      intro h
      obtain ⟨l2, hl⟩ := buildTable_extends _ _ _ h
      subst hl
      exact alookup_mono_append _ _ _ (buildTable_single_boolean tu t1 h1)

/-- C10 amended: once the user definitions register successfully, a table
that defines one of the builtin value-type names makes compile fail with
the duplicate-function error for the first such name in push order. -/
theorem c10_builtin_override_rejected (fuel : Nat) (env : EnvMap) (doc : Doc)
    (T : FnTable) (nm : String)
    (hT : buildTable (doc.functions.getD []).flatten [] = .ok T)
    (hnm : firstBuiltinIn T = some nm) :
    compile fuel env doc = .error (.duplicateFunction nm) := by
  have hsplit : buildTable ((doc.functions.getD [] ++ builtinDefs).flatten) [] =
      .error (.duplicateFunction nm) := by
    rw [List.flatten_append, buildTable_append, hT]
    exact builtins_dup T nm hnm
  simp only [compile, bind, Except.bind, hsplit]

/-- Witness for the amended C10 at the number-overriding document. -/
theorem c10_builtin_override_rejected_witness :
    buildTable ((overrideNumberDoc.functions.getD []).flatten) [] =
      .ok [("number", { args := [], ast := .lit (.bool true) })] ∧
    firstBuiltinIn [("number", { args := [], ast := .lit (.bool true) })] =
      some "number" ∧
    compile 24 [] overrideNumberDoc = .error (.duplicateFunction "number") :=
  ⟨rfl, rfl, c10_builtin_override_rejected 24 [] overrideNumberDoc
    [("number", { args := [], ast := .lit (.bool true) })] "number" rfl rfl⟩

/-- Decomposition of a successful compile into its pipeline stages. -/
theorem compile_ok_parts (fuel : Nat) (env : EnvMap) (doc : Doc)
    (out : Output) (doc2 : Doc)
    (h : compile fuel env doc = .ok (out, doc2)) :
    ∃ t0 fns tree root2 refs2,
      buildTable ((doc.functions.getD []).flatten ++ builtinDefs.flatten) [] = .ok t0 ∧
      dfLoop fuel env fuel t0 = .ok (some fns) ∧
      transformBranch fns env fuel doc.root [] [] "root" 0 = .ok (tree, root2, refs2) ∧
      out.rules = (extractEnc tree).1 ∧
      out.firecrypt = (extractEnc tree).2 ∧
      doc2.functions = some (doc.functions.getD [] ++ builtinDefs) ∧
      doc2.root = root2 := by
  cases hbuild : buildTable ((doc.functions.getD []).flatten ++ builtinDefs.flatten) [] with
  | error e =>
      simp [compile, bind, Except.bind, pure, Except.pure, throw, throwThe,
        MonadExceptOf.throw, hbuild] at h
  | ok t0 =>
    cases hloop : dfLoop fuel env fuel t0 with
    | error e =>
        simp [compile, bind, Except.bind, pure, Except.pure, throw, throwThe,
          MonadExceptOf.throw, hbuild, hloop] at h
    | ok o =>
      cases o with
      | none =>
          simp [compile, bind, Except.bind, pure, Except.pure, throw, throwThe,
            MonadExceptOf.throw, hbuild, hloop] at h
      | some fns =>
        cases htb : transformBranch fns env fuel doc.root [] [] "root" 0 with
        | error e =>
            simp [compile, bind, Except.bind, pure, Except.pure, throw, throwThe,
              MonadExceptOf.throw, hbuild, hloop, htb] at h
        | ok trip =>
          obtain ⟨tree, root2, refs2⟩ := trip
          refine ⟨t0, fns, tree, root2, refs2, rfl, hloop, htb, ?_⟩
          simp only [compile, bind, Except.bind, pure, Except.pure, throw, throwThe,
            MonadExceptOf.throw, List.flatten_append, hbuild, hloop, htb] at h
          split at h
          · split at h
            · split at h
              · exact absurd h (by simp)
              · simp only [Except.ok.injEq, Prod.mk.injEq] at h
                obtain ⟨h1, h2⟩ := h
                subst h1
                subst h2
                exact ⟨rfl, rfl, rfl, rfl⟩
            · simp only [Except.ok.injEq, Prod.mk.injEq] at h
              obtain ⟨h1, h2⟩ := h
              subst h1
              subst h2
              exact ⟨rfl, rfl, rfl, rfl⟩
          · simp only [Except.ok.injEq, Prod.mk.injEq] at h
            obtain ⟨h1, h2⟩ := h
            subst h1
            subst h2
            exact ⟨rfl, rfl, rfl, rfl⟩

/-- One step of the moreAllowed fold. -/
theorem moreOfEntries_cons (k : String) (v : Yaml) (rest : List (String × Yaml))
    (m : Bool) :
    moreOfEntries ((k, v) :: rest) m = moreOfEntries rest (moreOfEntries [(k, v)] m) := by
  by_cases h1 : k = ".value"
  · cases v <;> simp [moreOfEntries, h1]
  · by_cases h2 : k = ".write"
    · simp [moreOfEntries, h1, h2]
    · by_cases h3 : k = ".read"
      · simp [moreOfEntries, h1, h2, h3]
      · by_cases h4 : k = ".more"
        · simp [moreOfEntries, h1, h2, h3, h4]
        · simp [moreOfEntries, h1, h2, h3, h4]

/-- One step of the hasWildcard fold. -/
theorem wildOfEntries_cons (k : String) (v : Yaml) (rest : List (String × Yaml))
    (w : Bool) :
    wildOfEntries ((k, v) :: rest) w = wildOfEntries rest (wildOfEntries [(k, v)] w) := by
  by_cases h1 : k = ".value" ∨ k = ".write" ∨ k = ".read" ∨ k = ".more"
  · simp [wildOfEntries, h1]
  · simp [wildOfEntries, h1]

/-- One-step unfolding of the tree transformer on a branch job. -/
theorem branchGo_branch_unfold (fns : FnTable) (env : EnvMap) (fuel : Nat)
    (yamlIn : Yaml) (locals : List String) (refs : RefMap) (path : String) (level : Nat) :
    branchGo fns env (fuel + 1) (.branch yamlIn locals refs path level) =
      ((match yamlIn with
       | .str s => pure [(".value", Yaml.str s)]
       | .map es => pure es
       | _ => throw (Err.jsTypeError "in operator on a primitive")) >>= fun ym0 =>
      refCheck refs ym0 level >>= fun lrr =>
      branchGo fns env fuel (.entries (rwSplit lrr.2.2) path level
        (initBState (rwSplit lrr.2.2) lrr.2.1 locals)) >>= fun rst =>
      emitRW path (rst.getState (initBState (rwSplit lrr.2.2) lrr.2.1 locals)) >>=
        fun json1 =>
      pure (.node
        (.obj (finishJson (rst.getState (initBState (rwSplit lrr.2.2) lrr.2.1 locals)) json1))
        (outYaml yamlIn (rst.getState (initBState (rwSplit lrr.2.2) lrr.2.1 locals)))
        (refDrop lrr.1 (rst.getState (initBState (rwSplit lrr.2.2) lrr.2.1 locals)).refs))) :=
  rfl

/-- One-step unfolding of the entry loop on an exhausted list. -/
theorem branchGo_entries_nil (fns : FnTable) (env : EnvMap) (fuel : Nat)
    (path : String) (level : Nat) (st : BState) :
    branchGo fns env (fuel + 1) (.entries [] path level st) = .ok (.state st) := rfl

/-- One-step unfolding of the entry loop on a nonempty list. -/
theorem branchGo_entries_cons (fns : FnTable) (env : EnvMap) (fuel : Nat)
    (k : String) (v : Yaml) (rest : List (String × Yaml))
    (path : String) (level : Nat) (st : BState) :
    branchGo fns env (fuel + 1) (.entries ((k, v) :: rest) path level st) =
      ((match branchGo fns env fuel (.entry k v path level st) with
        | .error e => .error (e.locate path)
        | .ok r => .ok (r.getState st)) >>= fun st2 =>
      branchGo fns env fuel (.entries rest path level st2)) := rfl

/-- One-step unfolding of the entry switch. -/
theorem branchGo_entry_unfold (fns : FnTable) (env : EnvMap) (fuel : Nat)
    (key : String) (value : Yaml) (path : String) (level : Nat) (st : BState) :
    branchGo fns env (fuel + 1) (.entry key value path level st) = (
      if key = ".value" then
        match value with
        | .str s =>
            expandExpression fuel fns env (.str (stripKeywords s))
                st.locals st.refs level true >>= fun txt =>
              pure (.state { st with
                moreAllowed := if jsTrim (stripKeywords s) = "any" then true else st.moreAllowed,
                yaml := aset st.yaml key (.str txt) })
        | .bool b =>
            throw (Err.jsTypeError ("replace of " ++ (if b then "true" else "false")))
        | _ => throw (Err.jsTypeError "replace of a non-string")
      else if key = ".write" then
        expandExpression fuel fns env value st.locals st.refs level true >>= fun txt =>
          pure (.state { st with yaml := aset st.yaml key (.str txt) })
      else if key = ".read" then
        expandExpression fuel fns env value st.locals st.refs level false >>= fun txt =>
          pure (.state { st with yaml := aset st.yaml key (.str txt) })
      else if key = ".more" then
        pure (.state { st with moreAllowed := value.truthy })
      else
        if (fewPartOf key).1 ∧ key.toList.head? ≠ some '$' then
          throw (Err.fewOnNonWildcard key)
        else if (key2Of key).toList.head? = some '.' then
          throw (Err.unknownControlKey (key2Of key))
        else
          wildBindOf key st >>= fun lw =>
          constraintOf value >>= fun con =>
          keywordsOf key st con >>= fun rie =>
          (match branchGo fns env fuel (.branch value lw.1 st.refs
              (childPathOf key path) (level + 1)) with
            | .error e => .error e
            | .ok (.node j y r) => .ok (j, y, r)
            | .ok (.state _) => .error Err.outOfFuel) >>= fun cjyr =>
          pure (.state { st with
            json := aset st.json (key2Of key)
              (childAdjustOf key rie.2.2.2 rie.2.1 rie.2.2.1 cjyr.1).1,
            yaml := aset st.yaml key cjyr.2.1,
            refs := cjyr.2.2,
            locals := lw.1,
            requiredChildren := rie.1,
            indexedChildren := (childAdjustOf key rie.2.2.2 rie.2.1 rie.2.2.1 cjyr.1).2.1,
            indexedGrandChildren := (childAdjustOf key rie.2.2.2 rie.2.1 rie.2.2.1 cjyr.1).2.2,
            hasWildcard := lw.2 })) := rfl

/-- Reduction of a bind whose action already succeeded. -/
theorem ebind_pure {α β : Type} (a : α) (f : α → Except Err β) :
    (pure a : Except Err α) >>= f = f a := rfl

/-- A failed action never binds to a success. -/
theorem ebind_throw_ne_ok {α β : Type} (e : Err) (f : α → Except Err β) (b : β) :
    ¬ ((throw e : Except Err α) >>= f = Except.ok b) := fun hc => Except.noConfusion hc

/-- An error is never a success. -/
theorem ethrow_ne_ok {α : Type} (e : Err) (b : α) :
    ¬ ((throw e : Except Err α) = Except.ok b) := fun hc => Except.noConfusion hc

/-- An error value is never a success value. -/
theorem eerror_ne_ok {α : Type} (e : Err) (b : α) :
    ¬ ((Except.error e : Except Err α) = Except.ok b) := fun hc => Except.noConfusion hc

/-- A propagated error never binds to a success. -/
theorem ebind_error_ne_ok {α β : Type} (e : Err) (f : α → Except Err β) (b : β) :
    ¬ ((Except.error e : Except Err α) >>= f = Except.ok b) := fun hc => Except.noConfusion hc

/-- A bind succeeds exactly when its action and its continuation do. -/
theorem bind_ok_iff {α β : Type} (x : Except Err α) (f : α → Except Err β) (b : β) :
    (x >>= f = Except.ok b) ↔ ∃ a, x = Except.ok a ∧ f a = Except.ok b := by
  cases x with
  | error e => simp [Bind.bind, Except.bind]
  | ok a => simp [Bind.bind, Except.bind]

/-- Characterization of one entry step: the result is a state; the two
flags fold exactly as moreOfEntries and wildOfEntries prescribe; the yaml
is touched at most at the processed key; and a control entry stores the
expansion of its own value. -/
theorem entry_char (fns : FnTable) (env : EnvMap) (fuel : Nat) (k : String) (v : Yaml)
    (path : String) (level : Nat) (st : BState) (r : BRes)
    (h : branchGo fns env (fuel + 1) (.entry k v path level st) = .ok r) :
    ∃ st2, r = .state st2 ∧
      st2.moreAllowed = moreOfEntries [(k, v)] st.moreAllowed ∧
      st2.hasWildcard = wildOfEntries [(k, v)] st.hasWildcard ∧
      (st2.yaml = st.yaml ∨ ∃ w, st2.yaml = aset st.yaml k w) ∧
      ((k = ".value" ∨ k = ".write" ∨ k = ".read") →
        ∃ txt, expandExpression fuel fns env (ctrlInput k v) st.locals st.refs level
            (decide (¬ k = ".read")) = .ok txt ∧
          st2.yaml = aset st.yaml k (.str txt)) := by
  rw [branchGo_entry_unfold] at h
  split at h
  · next h1 =>
      subst h1
      cases v with
      | str s =>
          rw [bind_ok_iff] at h
          obtain ⟨txt, hexp, h⟩ := h
          injection h with hh
          subst hh
          refine ⟨_, rfl, ?_, ?_, ?_, ?_⟩
          · simp [moreOfEntries]
          · simp [wildOfEntries]
          · exact Or.inr ⟨_, rfl⟩
          · intro _
            exact ⟨txt, hexp, rfl⟩
      | bool b => exact absurd h (ethrow_ne_ok _ _)
      | num n => exact absurd h (ethrow_ne_ok _ _)
      | null => exact absurd h (ethrow_ne_ok _ _)
      | map es => exact absurd h (ethrow_ne_ok _ _)
  · next h1 =>
      split at h
      · next h2 =>
          subst h2
          rw [bind_ok_iff] at h
          obtain ⟨txt, hexp, h⟩ := h
          injection h with hh
          subst hh
          refine ⟨_, rfl, ?_, ?_, ?_, ?_⟩
          · simp [moreOfEntries, h1]
          · simp [wildOfEntries, h1]
          · exact Or.inr ⟨_, rfl⟩
          · intro _
            exact ⟨txt, hexp, rfl⟩
      · next h2 =>
          split at h
          · next h3 =>
              subst h3
              rw [bind_ok_iff] at h
              obtain ⟨txt, hexp, h⟩ := h
              injection h with hh
              subst hh
              refine ⟨_, rfl, ?_, ?_, ?_, ?_⟩
              · simp [moreOfEntries, h1, h2]
              · simp [wildOfEntries, h1, h2]
              · exact Or.inr ⟨_, rfl⟩
              · intro _
                exact ⟨txt, hexp, rfl⟩
          · next h3 =>
              split at h
              · next h4 =>
                  subst h4
                  injection h with hh
                  subst hh
                  refine ⟨_, rfl, ?_, ?_, Or.inl rfl, ?_⟩
                  · simp [moreOfEntries, h1, h2, h3]
                  · simp [wildOfEntries, h1, h2, h3]
                  · intro hk
                    exact absurd hk (by simp [h1, h2, h3])
              · next h4 =>
                  split at h
                  · exact absurd h (ethrow_ne_ok _ _)
                  · split at h
                    · exact absurd h (ethrow_ne_ok _ _)
                    · rw [bind_ok_iff] at h
                      obtain ⟨lw, hlw, h⟩ := h
                      rw [bind_ok_iff] at h
                      obtain ⟨con, hcon, h⟩ := h
                      rw [bind_ok_iff] at h
                      obtain ⟨rie, hrie, h⟩ := h
                      rw [bind_ok_iff] at h
                      obtain ⟨cjyr, hcj, h⟩ := h
                      injection h with hh
                      subst hh
                      refine ⟨_, rfl, by simp [moreOfEntries, h1, h2, h3, h4], ?_,
                        Or.inr ⟨_, rfl⟩, fun hk => absurd hk (by simp [h1, h2, h3])⟩
                      unfold wildBindOf at hlw
                      split at hlw
                      · next hd =>
                          split at hlw
                          · exact absurd hlw (ethrow_ne_ok _ _)
                          · next hw =>
                              injection hlw with hlw2
                              subst hlw2
                              simp [wildOfEntries, h1, h2, h3, h4, key2Of, fewPartOf,
                                encPartOf] at hd ⊢
                              simp [hd]
                      · next hd =>
                          injection hlw with hlw2
                          subst hlw2
                          simp [wildOfEntries, h1, h2, h3, h4, key2Of, fewPartOf,
                            encPartOf] at hd ⊢
                          simp [hd]

/-- Out of fuel, every job fails. -/
theorem branchGo_zero (fns : FnTable) (env : EnvMap) (job : BJob) :
    branchGo fns env 0 job = .error Err.outOfFuel := rfl

/-- Head decomposition of a distinct key list. -/
theorem distinctKeys_head {k0 : String} {ks : List String}
    (h : distinctKeys (k0 :: ks) = true) : ¬ k0 ∈ ks ∧ distinctKeys ks = true := by
  simp only [distinctKeys, Bool.and_eq_true, decide_eq_true_eq] at h
  exact ⟨fun hmem => h.1 (List.elem_eq_true_of_mem hmem), h.2⟩

/-- The entry loop folds the two flags exactly as the list folds do. -/
theorem entries_char (fns : FnTable) (env : EnvMap) (path : String) (level : Nat) :
    ∀ (es : List (String × Yaml)) (fuel : Nat) (st : BState) (r : BRes),
    branchGo fns env fuel (.entries es path level st) = .ok r →
    ∃ st2, r = .state st2 ∧
      st2.moreAllowed = moreOfEntries es st.moreAllowed ∧
      st2.hasWildcard = wildOfEntries es st.hasWildcard := by
  intro es
  induction es with
  | nil =>
      intro fuel st r h
      match fuel with
      | 0 => rw [branchGo_zero] at h; exact absurd h (eerror_ne_ok _ _)
      | fuel + 1 =>
          rw [branchGo_entries_nil] at h
          injection h with hh
          exact ⟨st, hh.symm, by simp [moreOfEntries], by simp [wildOfEntries]⟩
  | cons hd rest ih =>
      intro fuel st r h
      obtain ⟨k, v⟩ := hd
      match fuel with
      | 0 => rw [branchGo_zero] at h; exact absurd h (eerror_ne_ok _ _)
      | fuel + 1 =>
          rw [branchGo_entries_cons, bind_ok_iff] at h
          obtain ⟨st2, hst2, h⟩ := h
          split at hst2
          · exact absurd hst2 (eerror_ne_ok _ _)
          · next r0 hr0 =>
              injection hst2 with hst2
              subst hst2
              match fuel, hr0 with
              | 0, hr0 => rw [branchGo_zero] at hr0; exact absurd hr0 (eerror_ne_ok _ _)
              | f2 + 1, hr0 =>
                  obtain ⟨st1, hr1, hm, hw, _, _⟩ := entry_char _ _ _ _ _ _ _ _ _ hr0
                  subst hr1
                  simp only [BRes.getState] at h
                  obtain ⟨stF, hF, hmF, hwF⟩ := ih _ st1 r h
                  refine ⟨stF, hF, ?_, ?_⟩
                  · rw [hmF, hm, ← moreOfEntries_cons]
                  · rw [hwF, hw, ← wildOfEntries_cons]

/-- The entry loop leaves lookups at keys outside the list unchanged. -/
theorem entries_preserve (fns : FnTable) (env : EnvMap) (path : String) (level : Nat)
    (q : String) :
    ∀ (es : List (String × Yaml)) (fuel : Nat) (st st2 : BState),
    branchGo fns env fuel (.entries es path level st) = .ok (.state st2) →
    ¬ q ∈ es.map Prod.fst → alookup st2.yaml q = alookup st.yaml q := by
  intro es
  induction es with
  | nil =>
      intro fuel st st2 h _
      match fuel with
      | 0 => rw [branchGo_zero] at h; exact absurd h (eerror_ne_ok _ _)
      | fuel + 1 =>
          rw [branchGo_entries_nil] at h
          injection h with hh
          injection hh with hh
          rw [hh]
  | cons hd rest ih =>
      intro fuel st st2 h hq
      obtain ⟨k, v⟩ := hd
      simp only [List.map, List.mem_cons] at hq
      push_neg at hq
      match fuel with
      | 0 => rw [branchGo_zero] at h; exact absurd h (eerror_ne_ok _ _)
      | fuel + 1 =>
          rw [branchGo_entries_cons, bind_ok_iff] at h
          obtain ⟨stm, hstm, h⟩ := h
          split at hstm
          · exact absurd hstm (eerror_ne_ok _ _)
          · next r0 hr0 =>
              injection hstm with hstm
              subst hstm
              match fuel, hr0, h with
              | 0, hr0, h => rw [branchGo_zero] at hr0; exact absurd hr0 (eerror_ne_ok _ _)
              | f2 + 1, hr0, h =>
                  obtain ⟨st1, hr1, _, _, hy, _⟩ := entry_char _ _ _ _ _ _ _ _ _ hr0
                  subst hr1
                  simp only [BRes.getState] at h
                  have hrest := ih _ st1 st2 h hq.2
                  rw [hrest]
                  rcases hy with hy | ⟨w, hy⟩
                  · rw [hy]
                  · rw [hy, alookup_aset_ne _ _ _ _ hq.1]

/-- A control entry of the loop list ends up as the expansion of its own
value, at the loop fuel of its position. -/
theorem entries_ctrl (fns : FnTable) (env : EnvMap) (path : String) (level : Nat)
    (k : String) (hk : k = ".value" ∨ k = ".write" ∨ k = ".read") :
    ∀ (es : List (String × Yaml)) (fuel : Nat) (st st2 : BState) (v : Yaml),
    branchGo fns env fuel (.entries es path level st) = .ok (.state st2) →
    distinctKeys (es.map Prod.fst) = true →
    alookup es k = some v →
    ∃ f2 locals2 refs2 txt,
      expandExpression f2 fns env (ctrlInput k v) locals2 refs2 level
        (decide (¬ k = ".read")) = .ok txt ∧
      alookup st2.yaml k = some (.str txt) := by
  intro es
  induction es with
  | nil => intro fuel st st2 v h hd hv; exact absurd hv (by simp [alookup])
  | cons hd0 rest ih =>
      intro fuel st st2 v h hdk hv
      obtain ⟨k0, v0⟩ := hd0
      match fuel with
      | 0 => rw [branchGo_zero] at h; exact absurd h (eerror_ne_ok _ _)
      | fuel + 1 =>
          rw [branchGo_entries_cons, bind_ok_iff] at h
          obtain ⟨stm, hstm, h⟩ := h
          split at hstm
          · exact absurd hstm (eerror_ne_ok _ _)
          · next r0 hr0 =>
              injection hstm with hstm
              subst hstm
              match fuel, hr0, h with
              | 0, hr0, h => rw [branchGo_zero] at hr0; exact absurd hr0 (eerror_ne_ok _ _)
              | f2 + 1, hr0, h =>
                  obtain ⟨st1, hr1, _, _, hy, hctrl⟩ := entry_char _ _ _ _ _ _ _ _ _ hr0
                  subst hr1
                  simp only [BRes.getState] at h
                  have hds := distinctKeys_head hdk
                  by_cases hk0 : k0 = k
                  · subst hk0
                    rw [show alookup ((k0, v0) :: rest) k0 = some v0 by simp [alookup]] at hv
                    injection hv with hv
                    subst hv
                    obtain ⟨txt, hexp, hy2⟩ := hctrl hk
                    have hpres := entries_preserve fns env path level k0 rest _ st1 st2 h
                      (by simpa using hds.1)
                    refine ⟨f2, st.locals, st.refs, txt, hexp, ?_⟩
                    rw [hpres, hy2, alookup_aset_self]
                  · rw [show alookup ((k0, v0) :: rest) k = alookup rest k by
                      simp [alookup, hk0]] at hv
                    exact ih _ st1 st2 v h hds.2 hv

/-- The entries a successful ref check hands on: the .ref key removed
when present. -/
theorem refCheck_yaml (refs : RefMap) (ym0 : List (String × Yaml)) (level : Nat)
    (lrr : Option String × RefMap × List (String × Yaml))
    (h : refCheck refs ym0 level = .ok lrr) :
    lrr.2.2 = if (alookup ym0 ".ref").isSome then adel ym0 ".ref" else ym0 := by
  unfold refCheck at h
  split at h
  · next hnone =>
      injection h with h
      subst h
      simp [hnone]
  · next v hsome =>
      rw [bind_ok_iff] at h
      obtain ⟨vs, hvs, h⟩ := h
      split at h
      · exact absurd h (ethrow_ne_ok _ _)
      · split at h
        · exact absurd h (ethrow_ne_ok _ _)
        · split at h
          · exact absurd h (ethrow_ne_ok _ _)
          · injection h with h
            subst h
            simp [hsome]

/-- The string shorthand feeds the loop its promoted singleton. -/
theorem branchEntries_str (s : String) :
    branchEntries (.str s) = rwSplit [(".value", Yaml.str s)] := rfl

/-- A mapping feeds the loop its ref-stripped, split entries. -/
theorem branchEntries_map (es : List (String × Yaml)) :
    branchEntries (.map es) =
      rwSplit (if (alookup es ".ref").isSome then adel es ".ref" else es) := rfl

/-- A successful transformBranch is a successful branch job. -/
theorem transformBranch_ok (fns : FnTable) (env : EnvMap) (fuel : Nat) (yamlIn : Yaml)
    (locals : List String) (refs : RefMap) (path : String) (level : Nat)
    (j : JVal) (y : Yaml) (r2 : RefMap)
    (h : transformBranch fns env fuel yamlIn locals refs path level = .ok (j, y, r2)) :
    branchGo fns env fuel (.branch yamlIn locals refs path level) = .ok (.node j y r2) := by
  unfold transformBranch at h
  split at h
  · exact absurd h (eerror_ne_ok _ _)
  · next j2 y2 r3 heq =>
      injection h with h
      simp only [Prod.mk.injEq] at h
      obtain ⟨hj, hy, hr⟩ := h
      subst hj
      subst hy
      subst hr
      exact heq
  · exact absurd h (eerror_ne_ok _ _)

/-- Decomposition of a successful branch job: the entry loop ran on the
prepared entries from the fresh state, the read and write entries were
emitted, and the node was finished from the loop state. -/
theorem branch_parts (fns : FnTable) (env : EnvMap) (fuel : Nat) (yamlIn : Yaml)
    (locals : List String) (refs : RefMap) (path : String) (level : Nat)
    (j : JVal) (y : Yaml) (r2 : RefMap)
    (h : branchGo fns env (fuel + 1) (.branch yamlIn locals refs path level) =
      .ok (.node j y r2)) :
    ∃ refs1 stX json1,
      branchGo fns env fuel (.entries (branchEntries yamlIn) path level
        (initBState (branchEntries yamlIn) refs1 locals)) = .ok (.state stX) ∧
      stX.moreAllowed = moreOfEntries (branchEntries yamlIn) false ∧
      stX.hasWildcard = wildOfEntries (branchEntries yamlIn) false ∧
      emitRW path stX = .ok json1 ∧
      j = .obj (finishJson stX json1) ∧
      y = outYaml yamlIn stX := by
  rw [branchGo_branch_unfold, bind_ok_iff] at h
  obtain ⟨ym0, hym0, h⟩ := h
  rw [bind_ok_iff] at h
  obtain ⟨lrr, hlrr, h⟩ := h
  rw [bind_ok_iff] at h
  obtain ⟨rst, hrst, h⟩ := h
  rw [bind_ok_iff] at h
  obtain ⟨json1, hjson, h⟩ := h
  injection h with h
  have hbe : rwSplit lrr.2.2 = branchEntries yamlIn := by
    have hry := refCheck_yaml _ _ _ _ hlrr
    cases yamlIn with
    | str s =>
        injection hym0 with hym0
        subst hym0
        rw [hry, branchEntries_str]
        rfl
    | map es =>
        injection hym0 with hym0
        subst hym0
        rw [hry, branchEntries_map]
    | bool b => exact absurd hym0 (ethrow_ne_ok _ _)
    | num n => exact absurd hym0 (ethrow_ne_ok _ _)
    | null => exact absurd hym0 (ethrow_ne_ok _ _)
  rw [hbe] at hrst hjson h
  obtain ⟨stX, hstX, hmX, hwX⟩ :=
    entries_char fns env path level (branchEntries yamlIn) fuel _ rst hrst
  subst hstX
  simp only [BRes.getState] at hjson h
  injection h with hj hy hr
  refine ⟨lrr.2.1, stX, json1, hrst, ?_, ?_, hjson, hj.symm, hy.symm⟩
  · rw [hmX]
    rfl
  · rw [hwX]
    rfl

/-- A node whose computed flags are both clear closes itself with the
catch-all $other entry. -/
theorem branch_other (fns : FnTable) (env : EnvMap) (fuel : Nat) (yamlIn : Yaml)
    (locals : List String) (refs : RefMap) (path : String) (level : Nat)
    (j : JVal) (y : Yaml) (r2 : RefMap)
    (h : branchGo fns env (fuel + 1) (.branch yamlIn locals refs path level) =
      .ok (.node j y r2))
    (hm : moreOfEntries (branchEntries yamlIn) false = false)
    (hw : wildOfEntries (branchEntries yamlIn) false = false) :
    jpath j ["$other"] = some otherNode := by
  obtain ⟨refs1, stX, json1, hrst, hmX, hwX, hemit, hj, hy⟩ :=
    branch_parts fns env fuel yamlIn locals refs path level j y r2 h
  subst hj
  rw [hm] at hmX
  rw [hw] at hwX
  simp [jpath, finishJson, hmX, hwX, alookup_aset_self, otherNode]

/-- C4 amended: a successfully transformed node whose computed more and
wildcard folds are both clear carries the closing $other entry. -/
theorem c4_closed_world_amended (fns : FnTable) (env : EnvMap) (fuel : Nat)
    (yamlIn : Yaml) (locals : List String) (refs : RefMap) (path : String) (level : Nat)
    (j : JVal) (y : Yaml) (r2 : RefMap)
    (h : transformBranch fns env fuel yamlIn locals refs path level = .ok (j, y, r2))
    (hm : moreOfEntries (branchEntries yamlIn) false = false)
    (hw : wildOfEntries (branchEntries yamlIn) false = false) :
    jpath j ["$other"] = some otherNode := by
  match fuel with
  | 0 =>
      unfold transformBranch at h
      rw [branchGo_zero] at h
      exact absurd h (eerror_ne_ok _ _)
  | fuel + 1 =>
      exact branch_other fns env fuel yamlIn locals refs path level j y r2
        (transformBranch_ok _ _ _ _ _ _ _ _ _ _ _ h) hm hw

/-- Witness for the amended C4 at a concrete one-child document. -/
theorem c4_closed_world_amended_witness :
    moreOfEntries (branchEntries (.map [("foo", Yaml.str "string")])) false = false ∧
    wildOfEntries (branchEntries (.map [("foo", Yaml.str "string")])) false = false ∧
    jpath (JVal.obj
      [("foo", JVal.obj [(".validate", JVal.str "newData.isString()"),
        ("$other", JVal.obj [(".validate", JVal.bool false)])]),
       ("$other", JVal.obj [(".validate", JVal.bool false)])]) ["$other"] =
      some otherNode :=
  ⟨rfl, rfl,
    c4_closed_world_amended builtinsT [] 24 (.map [("foo", Yaml.str "string")]) [] []
      "root" 0
      (JVal.obj
        [("foo", JVal.obj [(".validate", JVal.str "newData.isString()"),
          ("$other", JVal.obj [(".validate", JVal.bool false)])]),
         ("$other", JVal.obj [(".validate", JVal.bool false)])])
      (.map [("foo", Yaml.str "string")]) [] rfl rfl rfl⟩

/-- A control entry of a mapping node is replaced in the mutated node by
the expansion of its own value. -/
theorem branch_map_ctrl (fns : FnTable) (env : EnvMap) (fuel : Nat)
    (es0 : List (String × Yaml)) (locals : List String) (refs : RefMap)
    (path : String) (level : Nat) (j : JVal) (y : Yaml) (r2 : RefMap)
    (h : branchGo fns env (fuel + 1) (.branch (.map es0) locals refs path level) =
      .ok (.node j y r2))
    (k : String) (v : Yaml) (hk : k = ".value" ∨ k = ".write" ∨ k = ".read")
    (hd : distinctKeys ((branchEntries (.map es0)).map Prod.fst) = true)
    (hv : alookup (branchEntries (.map es0)) k = some v) :
    ∃ es2 f2 locals2 refs2 txt,
      y = .map es2 ∧
      expandExpression f2 fns env (ctrlInput k v) locals2 refs2 level
        (decide (¬ k = ".read")) = .ok txt ∧
      alookup es2 k = some (.str txt) := by
  obtain ⟨refs1, stX, json1, hrst, _, _, _, _, hy⟩ :=
    branch_parts fns env fuel (.map es0) locals refs path level j y r2 h
  obtain ⟨f2, l2, r3, txt, hexp, hlook⟩ :=
    entries_ctrl fns env path level k hk (branchEntries (.map es0)) fuel _ stX v hrst hd hv
  refine ⟨stX.yaml, f2, l2, r3, txt, ?_, hexp, hlook⟩
  rw [hy]
  rfl

/-- C9: compile hands back a mutated document: the functions sequence has
the four builtins appended (created when absent), every control entry of
a mapping root is replaced by its compiled expression text, and compiling
the mutated document again fails with the duplicate-function error for
boolean, the first builtin re-registered. -/
theorem c9_compile_mutates_document (fuel : Nat) (env : EnvMap) (doc : Doc)
    (out : Output) (doc2 : Doc)
    (h : compile fuel env doc = .ok (out, doc2)) :
    doc2.functions = some (doc.functions.getD [] ++ builtinDefs) ∧
    compile fuel env doc2 = .error (.duplicateFunction "boolean") ∧
    (∀ es0 k v, doc.root = .map es0 →
      (k = ".value" ∨ k = ".write" ∨ k = ".read") →
      distinctKeys ((branchEntries doc.root).map Prod.fst) = true →
      alookup (branchEntries doc.root) k = some v →
      ∃ fns2 es2 f2 locals2 refs2 txt,
        doc2.root = .map es2 ∧
        expandExpression f2 fns2 env (ctrlInput k v) locals2 refs2 0
          (decide (¬ k = ".read")) = .ok txt ∧
        alookup es2 k = some (.str txt)) := by
  obtain ⟨t0, fns, tree, root2, refs2, hbuild, hloop, htb, hrules, hfc, hfuns, hroot⟩ :=
    compile_ok_parts fuel env doc out doc2 h
  have hdup : (alookup t0 "boolean").isSome = true := by
    rw [buildTable_append] at hbuild
    revert hbuild
    cases hu : buildTable (doc.functions.getD []).flatten [] with
    | error e => intro hbuild; exact absurd hbuild (eerror_ne_ok _ _)
    | ok tu => intro hbuild; exact builtins_after tu t0 hbuild
  refine ⟨hfuns, ?_, ?_⟩
  · have hbflat : ((doc.functions.getD [] ++ builtinDefs).flatten) =
        (doc.functions.getD []).flatten ++ builtinDefs.flatten := List.flatten_append ..
    have hboom : buildTable builtinDefs.flatten t0 = .error (.duplicateFunction "boolean") := by
      rw [builtinDefs_flatten]
      simp [buildTable, bind, Except.bind, processDef_boolean, hdup]
    have hstep2 : buildTable ((doc2.functions.getD [] ++ builtinDefs).flatten) [] =
        .error (.duplicateFunction "boolean") := by
      rw [hfuns]
      show buildTable (((doc.functions.getD [] ++ builtinDefs) ++ builtinDefs).flatten) [] = _
      rw [List.flatten_append, buildTable_append, hbflat, hbuild]
      exact hboom
    simp only [compile, bind, Except.bind, hstep2]
  · intro es0 k v hroot0 hk hd hv
    match fuel, htb, hloop with
    | 0, htb, hloop =>
        unfold transformBranch at htb
        rw [branchGo_zero] at htb
        exact absurd htb (eerror_ne_ok _ _)
    | fuel + 1, htb, hloop =>
        have hb := transformBranch_ok _ _ _ _ _ _ _ _ _ _ _ htb
        rw [hroot0] at hb hd hv
        obtain ⟨es2, f2, l2, r3, txt, hy2, hexp, hlook⟩ :=
          branch_map_ctrl fns env fuel es0 [] [] "root" 0 tree root2 refs2 hb k v hk hd hv
        exact ⟨fns, es2, f2, l2, r3, txt, by rw [hroot, hy2], hexp, hlook⟩

/-- Witness for C9 at the mutation document. -/
theorem c9_compile_mutates_document_witness :
    mutatedDoc.functions = some (mutationDoc.functions.getD [] ++ builtinDefs) ∧
    compile 24 [] mutatedDoc = .error (.duplicateFunction "boolean") ∧
    (∀ es0 k v, mutationDoc.root = .map es0 →
      (k = ".value" ∨ k = ".write" ∨ k = ".read") →
      distinctKeys ((branchEntries mutationDoc.root).map Prod.fst) = true →
      alookup (branchEntries mutationDoc.root) k = some v →
      ∃ fns2 es2 f2 locals2 refs2 txt,
        mutatedDoc.root = .map es2 ∧
        expandExpression f2 fns2 [] (ctrlInput k v) locals2 refs2 0
          (decide (¬ k = ".read")) = .ok txt ∧
        alookup es2 k = some (.str txt)) :=
  c9_compile_mutates_document 24 [] mutationDoc _ mutatedDoc rfl

/-- An object over a well-formed entry list is well-formed. -/
theorem nodup_obj_of_invJ {l : List (String × JVal)} (h : invJ l) :
    nodupRecB (.obj l) = true := by
  simp [nodupRecB, h.1, h.2]

/-- The keys of a property write: unchanged when present, appended when
fresh. -/
theorem aset_keys {β : Type} (l : List (String × β)) (k : String) (v : β) :
    (aset l k v).map Prod.fst =
      if k ∈ l.map Prod.fst then l.map Prod.fst else l.map Prod.fst ++ [k] := by
  induction l with
  | nil => simp [aset]
  | cons hd t ih =>
      obtain ⟨k0, v0⟩ := hd
      by_cases hk : k0 = k
      · simp [aset, hk]
      · simp only [aset, if_neg hk, List.map, ih]
        by_cases hm : k ∈ t.map Prod.fst
        · simp [hm, Ne.symm hk]
        · simp [hm, Ne.symm hk, List.mem_cons]

/-- Distinctness survives a property write. -/
theorem distinct_aset {β : Type} (l : List (String × β)) (k : String) (v : β)
    (h : distinctKeys (l.map Prod.fst) = true) :
    distinctKeys ((aset l k v).map Prod.fst) = true := by
  rw [aset_keys]
  split
  · exact h
  · next hmem =>
      revert h hmem
      induction l.map Prod.fst with
      | nil => intro h hmem; simp [distinctKeys]
      | cons k0 ks ih =>
          intro h hmem
          obtain ⟨h1, h2⟩ := distinctKeys_head h
          simp only [List.mem_cons] at hmem
          push_neg at hmem
          simp only [List.cons_append, distinctKeys, Bool.and_eq_true, decide_eq_true_eq]
          refine ⟨?_, ih h2 hmem.2⟩
          intro hc
          have : k0 ∈ ks ++ [k] := by
            have := List.mem_of_elem_eq_true hc
            simpa using this
          rcases List.mem_append.mp this with hh | hh
          · exact h1 hh
          · simp at hh
            exact hmem.1 hh.symm

/-- Value well-formedness survives a property write of a well-formed
value. -/
theorem nodupEntries_aset (l : List (String × JVal)) (k : String) (v : JVal)
    (hl : nodupEntriesB l = true) (hv : nodupRecB v = true) :
    nodupEntriesB (aset l k v) = true := by
  induction l with
  | nil => simp [aset, nodupEntriesB, hv]
  | cons hd t ih =>
      obtain ⟨k0, v0⟩ := hd
      simp only [nodupEntriesB, Bool.and_eq_true] at hl
      by_cases hk : k0 = k
      · simp [aset, hk, nodupEntriesB, hv, hl.2]
      · simp [aset, hk, nodupEntriesB, hl.1, ih hl.2]

/-- A well-formed write extends a well-formed list. -/
theorem invJ_aset {l : List (String × JVal)} (k : String) {v : JVal}
    (hl : invJ l) (hv : nodupRecB v = true) : invJ (aset l k v) :=
  ⟨distinct_aset l k v hl.1, nodupEntries_aset l k v hl.2 hv⟩

/-- Keys of a deletion are a sublist of the original keys. -/
theorem mem_adel_keys {β : Type} (l : List (String × β)) (k q : String)
    (h : q ∈ (adel l k).map Prod.fst) : q ∈ l.map Prod.fst := by
  induction l with
  | nil => simpa [adel] using h
  | cons hd t ih =>
      obtain ⟨k0, v0⟩ := hd
      by_cases hk : k0 = k
      · simp only [adel, hk, if_pos rfl] at h
        exact List.mem_cons_of_mem _ (ih (by simpa [hk] using h))
      · simp only [adel, if_neg hk, List.map, List.mem_cons] at h
        rcases h with h | h
        · simp [h]
        · exact List.mem_cons_of_mem _ (ih h)

/-- Distinctness survives a deletion. -/
theorem distinct_adel {β : Type} (l : List (String × β)) (k : String)
    (h : distinctKeys (l.map Prod.fst) = true) :
    distinctKeys ((adel l k).map Prod.fst) = true := by
  induction l with
  | nil => simpa [adel] using h
  | cons hd t ih =>
      obtain ⟨k0, v0⟩ := hd
      obtain ⟨h1, h2⟩ := distinctKeys_head h
      by_cases hk : k0 = k
      · simp only [adel, hk, if_pos rfl]
        exact ih h2
      · simp only [adel, if_neg hk, List.map, distinctKeys, Bool.and_eq_true,
          decide_eq_true_eq]
        refine ⟨?_, ih h2⟩
        intro hc
        exact h1 (mem_adel_keys t k k0 (List.mem_of_elem_eq_true hc))

/-- Value well-formedness survives a deletion. -/
theorem nodupEntries_adel (l : List (String × JVal)) (k : String)
    (hl : nodupEntriesB l = true) : nodupEntriesB (adel l k) = true := by
  induction l with
  | nil => simpa [adel] using hl
  | cons hd t ih =>
      obtain ⟨k0, v0⟩ := hd
      simp only [nodupEntriesB, Bool.and_eq_true] at hl
      by_cases hk : k0 = k
      · simp only [adel, hk, if_pos rfl]
        exact ih hl.2
      · simp [adel, hk, nodupEntriesB, hl.1, ih hl.2]

/-- A well-formed deletion of a well-formed list. -/
theorem invJ_adel {l : List (String × JVal)} (k : String) (hl : invJ l) :
    invJ (adel l k) :=
  ⟨distinct_adel l k hl.1, nodupEntries_adel l k hl.2⟩

/-- A looked-up value of a well-formed list is well-formed. -/
theorem nodupEntries_alookup (l : List (String × JVal)) (k : String) (v : JVal)
    (hl : nodupEntriesB l = true) (hv : alookup l k = some v) :
    nodupRecB v = true := by
  induction l with
  | nil => exact absurd hv (by simp [alookup])
  | cons hd t ih =>
      obtain ⟨k0, v0⟩ := hd
      simp only [nodupEntriesB, Bool.and_eq_true] at hl
      by_cases hk : k0 = k
      · rw [show alookup ((k0, v0) :: t) k = some v0 by simp [alookup, hk]] at hv
        injection hv with hv
        subst hv
        exact hl.1
      · rw [show alookup ((k0, v0) :: t) k = alookup t k by simp [alookup, hk]] at hv
        exact ih hl.2 hv

/-- Output conversion of a YAML entry is a well-formed leaf. -/
theorem nodupRec_yamlToJVal (v : Yaml) : nodupRecB (yamlToJVal v) = true := by
  cases v <;> rfl

/-- The encrypt descriptor object is well-formed. -/
theorem nodupRec_enc2 (key : String) (encV : Option String) :
    nodupRecB (.obj (enc2Of key encV)) = true := by
  unfold enc2Of
  cases (encPartOf key).1 with
  | none =>
      cases hf : (fewPartOf key).1 <;> cases encV <;>
        simp [aset, nodupRecB, nodupEntriesB, distinctKeys]
  | some pat =>
      cases hf : (fewPartOf key).1 <;> cases encV <;>
        simp [aset, nodupRecB, nodupEntriesB, distinctKeys]

/-- The wrapped child node stays well-formed. -/
theorem nodup_childWrap (key : String) (encV : Option String) (childJson : JVal)
    (h : nodupRecB childJson = true) :
    nodupRecB (childWrapOf key encV childJson) = true := by
  cases childJson with
  | obj es =>
      simp only [childWrapOf]
      split
      · exact h
      · simp only [nodupRecB, Bool.and_eq_true] at h
        exact nodup_obj_of_invJ (invJ_aset _ ⟨h.1, h.2⟩ (nodupRec_enc2 key encV))
  | str s => exact h
  | bool b => exact h
  | num n => exact h
  | jnull => exact h
  | arr xs => exact h

/-- The index-hoisted child node stays well-formed. -/
theorem nodup_childAdjust (key : String) (encV : Option String)
    (idxC2 idxG2 : List String) (childJson : JVal)
    (h : nodupRecB childJson = true) :
    nodupRecB (childAdjustOf key encV idxC2 idxG2 childJson).1 = true := by
  have hw := nodup_childWrap key encV childJson h
  unfold childAdjustOf
  split
  · next es heq =>
      rw [heq] at hw
      simp only [nodupRecB, Bool.and_eq_true] at hw
      split
      · split <;>
          exact nodup_obj_of_invJ (invJ_adel _ ⟨hw.1, hw.2⟩)
      · rw [heq]
        exact nodup_obj_of_invJ ⟨hw.1, hw.2⟩
  · exact hw

/-- The read and write emission keeps the JSON entries well-formed. -/
theorem emitRW_nodup (path : String) (st : BState) (json1 : List (String × JVal))
    (h : emitRW path st = .ok json1) (hi : invJ st.json) : invJ json1 := by
  unfold emitRW at h
  split at h
  · split at h
    · exact absurd h (ethrow_ne_ok _ _)
    · injection h with h
      subst h
      exact invJ_aset _ (invJ_aset _ hi (nodupRec_yamlToJVal _)) (nodupRec_yamlToJVal _)
  · split at h <;> split at h <;>
      (injection h with h; subst h) <;>
      first
        | exact hi
        | exact invJ_aset _ hi (nodupRec_yamlToJVal _)
        | exact invJ_aset _ (invJ_aset _ hi (nodupRec_yamlToJVal _)) (nodupRec_yamlToJVal _)

/-- The node finishing steps build a well-formed object. -/
theorem finishJson_nodup (st : BState) (json1 : List (String × JVal))
    (h : invJ json1) : nodupRecB (.obj (finishJson st json1)) = true := by
  simp only [finishJson]
  apply nodup_obj_of_invJ
  repeat'
    first
      | exact h
      | rfl
      | (apply invJ_aset)
      | split
      | decide

/-- The JSON side of one entry step: unchanged except for a child entry,
which writes the adjusted recursive result under the stripped key. -/
theorem entry_json (fns : FnTable) (env : EnvMap) (fuel : Nat) (k : String) (v : Yaml)
    (path : String) (level : Nat) (st : BState) (r : BRes)
    (h : branchGo fns env (fuel + 1) (.entry k v path level st) = .ok r) :
    ∃ st2, r = .state st2 ∧
      (st2.json = st.json ∨
       ∃ encV idxC idxG j2 y2 r3,
         branchGo fns env fuel (.branch v st2.locals st.refs (childPathOf k path)
           (level + 1)) = .ok (.node j2 y2 r3) ∧
         st2.json = aset st.json (key2Of k) (childAdjustOf k encV idxC idxG j2).1) := by
  rw [branchGo_entry_unfold] at h
  split at h
  · next h1 =>
      cases v with
      | str s =>
          rw [bind_ok_iff] at h
          obtain ⟨txt, hexp, h⟩ := h
          injection h with hh
          exact ⟨_, hh.symm, Or.inl rfl⟩
      | bool b => exact absurd h (ethrow_ne_ok _ _)
      | num n => exact absurd h (ethrow_ne_ok _ _)
      | null => exact absurd h (ethrow_ne_ok _ _)
      | map es => exact absurd h (ethrow_ne_ok _ _)
  · split at h
    · rw [bind_ok_iff] at h
      obtain ⟨txt, hexp, h⟩ := h
      injection h with hh
      exact ⟨_, hh.symm, Or.inl rfl⟩
    · split at h
      · rw [bind_ok_iff] at h
        obtain ⟨txt, hexp, h⟩ := h
        injection h with hh
        exact ⟨_, hh.symm, Or.inl rfl⟩
      · split at h
        · injection h with hh
          exact ⟨_, hh.symm, Or.inl rfl⟩
        · split at h
          · exact absurd h (ethrow_ne_ok _ _)
          · split at h
            · exact absurd h (ethrow_ne_ok _ _)
            · rw [bind_ok_iff] at h
              obtain ⟨lw, hlw, h⟩ := h
              rw [bind_ok_iff] at h
              obtain ⟨con, hcon, h⟩ := h
              rw [bind_ok_iff] at h
              obtain ⟨rie, hrie, h⟩ := h
              rw [bind_ok_iff] at h
              obtain ⟨cjyr, hcj, h⟩ := h
              injection h with hh
              split at hcj
              · exact absurd hcj (eerror_ne_ok _ _)
              · next j2 y2 r3 heq =>
                  injection hcj with hcj
                  subst hcj
                  exact ⟨_, hh.symm, Or.inr ⟨rie.2.2.2, rie.2.1, rie.2.2.1,
                    j2, y2, r3, heq, rfl⟩⟩
              · exact absurd hcj (eerror_ne_ok _ _)

/-- The tree transformer only builds well-formed JSON: every JavaScript
object has distinct property keys, and the embedding preserves that shape
invariant through every job. -/
theorem branchGo_nodup (fns : FnTable) (env : EnvMap) :
    ∀ (fuel : Nat) (job : BJob) (r : BRes),
    branchGo fns env fuel job = .ok r → jobNodupIn job → resNodupOut job r := by
  intro fuel
  induction fuel with
  | zero =>
      intro job r h _
      rw [branchGo_zero] at h
      exact absurd h (eerror_ne_ok _ _)
  | succ fuel ih =>
      intro job r h hin
      match job with
      | .branch yamlIn locals refs path level =>
          match r with
          | .state s => trivial
          | .node j y r2 =>
              obtain ⟨refs1, stX, json1, hrst, _, _, hemit, hj, _⟩ :=
                branch_parts fns env fuel yamlIn locals refs path level j y r2 h
              have hst := ih (.entries (branchEntries yamlIn) path level
                (initBState (branchEntries yamlIn) refs1 locals)) (.state stX) hrst
                (by exact ⟨rfl, rfl⟩)
              have hj1 := emitRW_nodup path stX json1 hemit hst
              subst hj
              exact finishJson_nodup stX json1 hj1
      | .entries [] path level st =>
          rw [branchGo_entries_nil] at h
          injection h with hh
          subst hh
          exact hin
      | .entries ((k, v) :: rest) path level st =>
          rw [branchGo_entries_cons, bind_ok_iff] at h
          obtain ⟨stm, hstm, h⟩ := h
          split at hstm
          · exact absurd hstm (eerror_ne_ok _ _)
          · next r0 hr0 =>
              injection hstm with hstm
              subst hstm
              have hr0inv := ih (.entry k v path level st) r0 hr0 hin
              have hnext : invJ (r0.getState st).json := by
                match r0, hr0inv with
                | .state st1, hr0inv => exact hr0inv
                | .node _ _ _, _ => exact hin
              have hres := ih (.entries rest path level (r0.getState st)) r h hnext
              match r, hres with
              | .node _ _ _, _ => trivial
              | .state st2, hres => exact hres
      | .entry k v path level st =>
          match r with
          | .node j y r2 =>
              obtain ⟨st2, hst2, _⟩ := entry_json fns env fuel k v path level st _ h
              exact absurd hst2 (by simp)
          | .state st2 =>
              obtain ⟨st3, hst3, hjson⟩ := entry_json fns env fuel k v path level st _ h
              injection hst3 with hst3
              subst hst3
              rcases hjson with hjson | ⟨encV, idxC, idxG, j2, y2, r3, hbr, hjson⟩
              · show invJ st2.json
                rw [hjson]
                exact hin
              · have hrec := ih (.branch v st2.locals st.refs (childPathOf k path)
                  (level + 1)) (.node j2 y2 r3) hbr trivial
                show invJ st2.json
                rw [hjson]
                exact invJ_aset _ hin (nodup_childAdjust k encV idxC idxG j2 hrec)

mutual

/-- The stripped tree carries no .encrypt entry anywhere. -/
theorem noEnc_extract (t : JVal) : noEncB (extractEnc t).1 = true := by
  match t with
  | .obj es =>
      have h := noEnc_extractLoop es
      simp only [extractEnc, noEncB]
      exact h
  | .str s => rfl
  | .bool b => rfl
  | .num n => rfl
  | .jnull => rfl
  | .arr xs => rfl

/-- The stripped entries carry no .encrypt entry anywhere. -/
theorem noEnc_extractLoop (es : List (String × JVal)) :
    noEncEntriesB (extractLoop es).1 = true := by
  match es with
  | [] => rfl
  | (k, v) :: rest =>
      by_cases hk : k = ".encrypt"
      · simp only [extractLoop, if_pos hk]
        exact noEnc_extractLoop rest
      · simp only [extractLoop, if_neg hk, noEncEntriesB, Bool.and_eq_true,
          decide_eq_true_eq]
        exact ⟨⟨hk, noEnc_extract v⟩, noEnc_extractLoop rest⟩

end

/-- Lookup at the head key. -/
theorem alookup_cons_self {β : Type} (k : String) (v : β) (l : List (String × β)) :
    alookup ((k, v) :: l) k = some v := by simp [alookup]

/-- Lookup skipping a differently keyed head. -/
theorem alookup_cons_ne {β : Type} {k0 k : String} (v : β) (l : List (String × β))
    (h : ¬ k0 = k) : alookup ((k0, v) :: l) k = alookup l k := by simp [alookup, h]

/-- The collected encrypt entries only use keys of the original. -/
theorem extract_keys_none (es : List (String × JVal)) (k : String)
    (h : ¬ k ∈ es.map Prod.fst) : alookup (extractLoop es).2 k = none := by
  induction es with
  | nil => rfl
  | cons hd rest ih =>
      obtain ⟨k0, v0⟩ := hd
      simp only [List.map, List.mem_cons] at h
      push_neg at h
      have hne : ¬ k0 = k := fun hc => h.1 hc.symm
      by_cases hk : k0 = ".encrypt"
      · simp only [extractLoop, if_pos hk]
        split
        · rw [alookup_cons_ne _ _ hne]
          exact ih h.2
        · exact ih h.2
      · simp only [extractLoop, if_neg hk]
        split
        · rw [alookup_cons_ne _ _ hne]
          exact ih h.2
        · exact ih h.2

/-- One cons step of the collector at the descriptor key. -/
theorem extractLoop_cons_enc (v0 : JVal) (rest : List (String × JVal)) :
    (extractLoop ((".encrypt", v0) :: rest)).2 =
      if v0.truthy then (".encrypt", v0) :: (extractLoop rest).2
      else (extractLoop rest).2 := by
  cases htr : v0.truthy <;> simp [extractLoop, htr]

/-- One cons step of the collector at an ordinary key. -/
theorem extractLoop_cons_ne (k0 : String) (v0 : JVal) (rest : List (String × JVal))
    (hk : ¬ k0 = ".encrypt") :
    (extractLoop ((k0, v0) :: rest)).2 =
      match (extractEnc v0).2 with
      | some t => (k0, t) :: (extractLoop rest).2
      | none => (extractLoop rest).2 := by
  cases hp : (extractEnc v0).2 <;> simp [extractLoop, hk, hp]

/-- The collected encrypt entry at the node itself: present exactly when
the original carries a truthy descriptor (keys distinct). -/
theorem extractLoop_enc_lookup (es : List (String × JVal))
    (hd : distinctKeys (es.map Prod.fst) = true) :
    alookup (extractLoop es).2 ".encrypt" =
      match alookup es ".encrypt" with
      | some v => if v.truthy then some v else none
      | none => none := by
  induction es with
  | nil => rfl
  | cons hd0 rest ih =>
      obtain ⟨k0, v0⟩ := hd0
      obtain ⟨h1, h2⟩ := distinctKeys_head hd
      by_cases hk : k0 = ".encrypt"
      · subst hk
        simp only at h1
        rw [extractLoop_cons_enc]
        cases htr : v0.truthy with
        | true => simp [htr, alookup]
        | false => simp [htr, alookup, extract_keys_none rest ".encrypt" h1]
      · rw [alookup_cons_ne _ _ hk, extractLoop_cons_ne _ _ _ hk]
        split
        · rw [alookup_cons_ne _ _ hk]
          exact ih h2
        · exact ih h2

/-- The collected encrypt entries under a child key: the child extraction
of the original entry (keys distinct). -/
theorem extractLoop_child (es : List (String × JVal)) (k : String)
    (hk : ¬ k = ".encrypt") (hd : distinctKeys (es.map Prod.fst) = true) :
    alookup (extractLoop es).2 k =
      (alookup es k).bind (fun v => (extractEnc v).2) := by
  induction es with
  | nil => rfl
  | cons hd0 rest ih =>
      obtain ⟨k0, v0⟩ := hd0
      obtain ⟨h1, h2⟩ := distinctKeys_head hd
      by_cases hk0 : k0 = ".encrypt"
      · subst hk0
        have hne : ¬ (".encrypt" : String) = k := fun hc => hk hc.symm
        rw [alookup_cons_ne _ _ hne, extractLoop_cons_enc]
        cases htr : v0.truthy with
        | true => simp [htr, alookup_cons_ne _ _ hne, ih h2]
        | false => simp [htr, ih h2]
      · rw [extractLoop_cons_ne _ _ _ hk0]
        by_cases hke : k0 = k
        · subst hke
          simp only at h1
          rw [alookup_cons_self]
          cases hp : (extractEnc v0).2 with
          | some t => simp [hp, alookup_cons_self]
          | none => simp [hp, extract_keys_none rest k0 h1]
        · rw [alookup_cons_ne _ _ hke]
          cases hp : (extractEnc v0).2 with
          | some t => simp [hp, alookup_cons_ne _ _ hke, ih h2]
          | none => simp [hp, ih h2]

/-- A lookup hit means the list is nonempty. -/
theorem alookup_some_not_empty {β : Type} {l : List (String × β)} {k : String} {v : β}
    (h : alookup l k = some v) : l.isEmpty = false := by
  cases l with
  | nil => exact absurd h (by simp [alookup])
  | cons a t => rfl

/-- A non-truthy value carries no descriptor at any path. -/
theorem encAt_not_truthy (v : JVal) (h : v.truthy = false) (p : List String) :
    encAtB v p = false := by
  cases v with
  | obj es => simp [JVal.truthy] at h
  | str s => cases p <;> rfl
  | bool b => cases p <;> rfl
  | num n => cases p <;> rfl
  | jnull => cases p <;> rfl
  | arr xs => cases p <;> rfl

mutual

/-- The firecrypt tree answers descriptor queries exactly as the input
tree does, at every path (given distinct keys throughout). -/
theorem enc_extract2 (t : JVal) (hn : nodupRecB t = true) (p : List String) :
    encOf (extractEnc t).2 p = encAtB t p := by
  match t with
  | .obj es =>
      have hparts := hn
      simp only [nodupRecB, Bool.and_eq_true] at hparts
      obtain ⟨hd0, hne⟩ := hparts
      have hd : distinctKeys (es.map Prod.fst) = true := hd0
      have hec := extractLoop_enc_lookup es hd
      have hx : (extractEnc (.obj es)).2 =
          if (extractLoop es).2.isEmpty then none
          else some (.obj (extractLoop es).2) := rfl
      rw [hx]
      cases hemp : (extractLoop es).2.isEmpty with
      | true =>
          have hnil : (extractLoop es).2 = [] := by
            cases hval : (extractLoop es).2 with
            | nil => rfl
            | cons a l => rw [hval] at hemp; simp [List.isEmpty] at hemp
          rw [if_pos rfl]
          simp only [encOf]
          cases p with
          | nil =>
              cases halk : alookup es ".encrypt" with
              | none => simp [encAtB, halk]
              | some v =>
                  rw [halk, hnil] at hec
                  cases htr : v.truthy with
                  | true => simp [alookup, htr] at hec
                  | false => simp [encAtB, halk, htr]
          | cons k pr =>
              by_cases hk : k = ".encrypt"
              · subst hk
                cases halk : alookup es ".encrypt" with
                | none => simp [encAtB, halk]
                | some v =>
                    rw [halk, hnil] at hec
                    cases htr : v.truthy with
                    | true => simp [alookup, htr] at hec
                    | false =>
                        simp [encAtB, halk, encAt_not_truthy v htr pr]
              · have hcc := extractLoop_child es k hk hd
                rw [hnil] at hcc
                cases halk : alookup es k with
                | none => simp [encAtB, halk]
                | some v =>
                    rw [halk] at hcc
                    have hvn : (extractEnc v).2 = none := by
                      cases hp : (extractEnc v).2 with
                      | none => rfl
                      | some f => simp [alookup, hp] at hcc
                    have hrec := enc_extract2_entries es hne k v halk pr
                    rw [hvn] at hrec
                    simp only [encOf] at hrec
                    simp [encAtB, halk, ← hrec]
      | false =>
          rw [if_neg Bool.false_ne_true]
          simp only [encOf]
          cases p with
          | nil =>
              simp only [encAtB]
              rw [hec]
              cases halk : alookup es ".encrypt" with
              | none => simp
              | some v => cases htr : v.truthy <;> simp [htr]
          | cons k pr =>
              simp only [encAtB]
              by_cases hk : k = ".encrypt"
              · subst hk
                rw [hec]
                cases halk : alookup es ".encrypt" with
                | none => simp
                | some v =>
                    cases htr : v.truthy with
                    | true => simp [htr]
                    | false => simp [htr, encAt_not_truthy v htr pr]
              · rw [extractLoop_child es k hk hd]
                cases halk : alookup es k with
                | none => simp
                | some v =>
                    simp only [Option.bind]
                    have hrec := enc_extract2_entries es hne k v halk pr
                    simp only [encOf] at hrec
                    exact hrec
  | .str s => cases p <;> rfl
  | .bool b => cases p <;> rfl
  | .num n => cases p <;> rfl
  | .jnull => cases p <;> rfl
  | .arr xs => cases p <;> rfl

/-- The correspondence holds for every value reachable by a key lookup. -/
theorem enc_extract2_entries (es : List (String × JVal)) (hne : nodupEntriesB es = true)
    (k : String) (v : JVal) (hv : alookup es k = some v) (p : List String) :
    encOf (extractEnc v).2 p = encAtB v p := by
  match es with
  | [] => exact absurd hv (by simp [alookup])
  | (k0, v0) :: rest =>
      have hparts := hne
      simp only [nodupEntriesB, Bool.and_eq_true] at hparts
      obtain ⟨hnv, hnr⟩ := hparts
      by_cases hk : k0 = k
      · subst hk
        rw [alookup_cons_self] at hv
        injection hv with hv0
        subst hv0
        exact enc_extract2 v0 hnv p
      · rw [alookup_cons_ne _ _ hk] at hv
        exact enc_extract2_entries rest hnr k v hv p

end

/-- A lookup hit means the key occurs. -/
theorem alookup_some_mem {β : Type} {l : List (String × β)} {k : String} {v : β}
    (h : alookup l k = some v) : k ∈ l.map Prod.fst := by
  by_contra hc
  rw [(alookup_eq_none l k).mpr hc] at h
  exact Option.noConfusion h

/-- A descriptor path of the tail survives adding a fresh head key. -/
theorem encAt_cons_lift (k0 : String) (v0 : JVal) (rest : List (String × JVal))
    (p : List String) (hp : encAtB (.obj rest) p = true)
    (h1 : ¬ k0 ∈ rest.map Prod.fst) :
    encAtB (.obj ((k0, v0) :: rest)) p = true := by
  cases p with
  | nil =>
      cases halk : alookup rest ".encrypt" with
      | none => simp [encAtB, halk] at hp
      | some w =>
          have hmem := alookup_some_mem halk
          have hne : ¬ k0 = ".encrypt" := fun hc => h1 (hc ▸ hmem)
          simp only [encAtB] at hp ⊢
          rw [alookup_cons_ne _ _ hne]
          exact hp
  | cons k pr =>
      cases halk : alookup rest k with
      | none => simp [encAtB, halk] at hp
      | some w =>
          have hmem := alookup_some_mem halk
          have hne : ¬ k0 = k := fun hc => h1 (hc ▸ hmem)
          simp only [encAtB] at hp ⊢
          rw [alookup_cons_ne _ _ hne]
          exact hp

mutual

/-- When the extraction is nonempty, some path carries a truthy descriptor. -/
theorem extractSome_exists (t : JVal) (hn : nodupRecB t = true) (f : JVal)
    (h : (extractEnc t).2 = some f) : ∃ p, encAtB t p = true := by
  match t with
  | .obj es =>
      have hparts := hn
      simp only [nodupRecB, Bool.and_eq_true] at hparts
      obtain ⟨hd0, hne⟩ := hparts
      have hd : distinctKeys (es.map Prod.fst) = true := hd0
      have hx : (extractEnc (.obj es)).2 =
          if (extractLoop es).2.isEmpty then none
          else some (.obj (extractLoop es).2) := rfl
      rw [hx] at h
      have hne2 : ¬ (extractLoop es).2 = [] := by
        intro hnil
        rw [hnil] at h
        exact Option.noConfusion h
      exact extractLoop_ne_exists es hd hne
        (fun hc => hne2 hc)
  | .str s => exact absurd h (by simp [extractEnc])
  | .bool b => exact absurd h (by simp [extractEnc])
  | .num n => exact absurd h (by simp [extractEnc])
  | .jnull => exact absurd h (by simp [extractEnc])
  | .arr xs => exact absurd h (by simp [extractEnc])

/-- When the entry collector is nonempty, some path carries a truthy
descriptor. -/
theorem extractLoop_ne_exists (es : List (String × JVal))
    (hd : distinctKeys (es.map Prod.fst) = true)
    (hne : nodupEntriesB es = true)
    (h : ¬ (extractLoop es).2 = []) : ∃ p, encAtB (.obj es) p = true := by
  match es with
  | [] => exact absurd rfl h
  | (k0, v0) :: rest =>
      obtain ⟨h1, h2⟩ := distinctKeys_head hd
      have hones := hne
      simp only [nodupEntriesB, Bool.and_eq_true] at hones
      obtain ⟨hnv, hnr⟩ := hones
      by_cases hk : k0 = ".encrypt"
      · subst hk
        rw [extractLoop_cons_enc] at h
        cases htr : v0.truthy with
        | true =>
            refine ⟨[], ?_⟩
            simp [encAtB, alookup, htr]
        | false =>
            rw [htr] at h
            simp only [Bool.false_eq_true, if_neg (fun hc : false = true => by cases hc)]
              at h
            obtain ⟨p, hp⟩ := extractLoop_ne_exists rest h2 hnr h
            exact ⟨p, encAt_cons_lift _ v0 rest p hp h1⟩
      · rw [extractLoop_cons_ne _ _ _ hk] at h
        cases hp0 : (extractEnc v0).2 with
        | some t =>
            obtain ⟨pv, hpv⟩ := extractSome_exists v0 hnv t hp0
            refine ⟨k0 :: pv, ?_⟩
            simp only [encAtB]
            rw [alookup_cons_self]
            exact hpv
        | none =>
            rw [hp0] at h
            obtain ⟨p, hp⟩ := extractLoop_ne_exists rest h2 hnr h
            exact ⟨p, encAt_cons_lift _ v0 rest p hp h1⟩

end

/-- C7: after a successful compile the rules tree carries no .encrypt
entry at any path; the firecrypt output answers the descriptor query of
the pre-strip tree at every path; and it is omitted exactly when no
truthy descriptor exists anywhere. -/
theorem c7_firecrypt_extraction (fuel : Nat) (env : EnvMap) (doc : Doc)
    (out : Output) (doc2 : Doc)
    (h : compile fuel env doc = .ok (out, doc2)) :
    noEncB out.rules = true ∧
    ∃ tree, nodupRecB tree = true ∧
      out.rules = (extractEnc tree).1 ∧
      out.firecrypt = (extractEnc tree).2 ∧
      (∀ p, encOf out.firecrypt p = encAtB tree p) ∧
      (out.firecrypt = none ↔ ∀ p, encAtB tree p = false) := by
  obtain ⟨t0, fns, tree, root2, refs2, hb, hl, htr, hrules, hfc, hfn, hroot⟩ :=
    compile_ok_parts fuel env doc out doc2 h
  have hbg := transformBranch_ok fns env fuel doc.root [] [] "root" 0 tree root2 refs2 htr
  have hnod : nodupRecB tree = true :=
    branchGo_nodup fns env fuel (.branch doc.root [] [] "root" 0)
      (.node tree root2 refs2) hbg trivial
  constructor
  · rw [hrules]
    exact noEnc_extract tree
  · refine ⟨tree, hnod, hrules, hfc, ?_, ?_⟩
    · intro p
      rw [hfc]
      exact enc_extract2 tree hnod p
    · constructor
      · intro hnone p
        have hcor := enc_extract2 tree hnod p
        rw [hfc] at hnone
        rw [hnone] at hcor
        simpa [encOf] using hcor.symm
      · intro hall
        rw [hfc]
        cases hcase : (extractEnc tree).2 with
        | none => rfl
        | some f =>
            obtain ⟨p, hp⟩ := extractSome_exists tree hnod f hcase
            rw [hall p] at hp
            exact absurd hp (by simp)

theorem c7_firecrypt_extraction_witness :
    noEncB encResult.1.rules = true ∧
    ∃ tree, nodupRecB tree = true ∧
      encResult.1.rules = (extractEnc tree).1 ∧
      encResult.1.firecrypt = (extractEnc tree).2 ∧
      (∀ p, encOf encResult.1.firecrypt p = encAtB tree p) ∧
      (encResult.1.firecrypt = none ↔ ∀ p, encAtB tree p = false) :=
  c7_firecrypt_extraction 24 [] encryptedDoc encResult.1 encResult.2 (by rfl)

end Fireplan
